import Mathlib

set_option maxHeartbeats 1000000
set_option linter.unusedSectionVars false

/- Shallow embedding of `src/src/gadget_poseidon.rs` (bulletproofs-r1cs-gadgets).

   Field elements (curve25519 `Scalar`) are modelled by an arbitrary field `F`.
   `Scalar::invert` raises to the power of the group order minus two, hence it is a
   total function with `invert 0 = 0`; this coincides with Lean's junk-value
   convention `(0 : F)⁻¹ = 0`, so the Rust `elem.invert()` is embedded as `elem⁻¹`.

   Rust panics (failed `assert_eq!`, out-of-bounds `Vec` indexing, `Option::unwrap`
   on `None`) are modelled by `Option.none` on the native side and by dedicated
   `CircErr` constructors on the circuit side; `Result<_, R1CSError>` becomes the
   `.r1cs` constructor of `CircErr`.

   The bulletproofs r1cs `ConstraintSystem` is an external crate.  It is modelled
   by the explicit state `CS` below, following the crate's documented behaviour:
   a `Prover` holds concrete wire assignments and evaluates linear combinations,
   a `Verifier` holds none and `evaluate_lc` returns nothing; `multiply` allocates
   a fresh multiplier with two linear constraints tying its left/right wires to
   the given combinations; `allocate`/`allocate_single` fill multipliers one wire
   at a time through a `pending_multiplier` slot (the not-yet-assigned right and
   output slots are modelled as `none` until the pair completes). -/

namespace Poseidon

/-- bulletproofs circuit variables: the constant `One`, committed high-level
variables, and the three wires of each multiplication gate. -/
inductive Var : Type where
  | one : Var
  | comm : ℕ → Var
  | mulL : ℕ → Var
  | mulR : ℕ → Var
  | mulO : ℕ → Var
deriving DecidableEq, Repr

/-- bulletproofs `LinearCombination`: a formal list of (variable, coefficient)
terms; `+` on combinations is list append, scaling maps over coefficients. -/
abbrev LinComb (F : Type) : Type := List (Var × F)

/-- bulletproofs `R1CSError` (the variants used by this gadget). -/
inductive R1CSError : Type where
  | GadgetError (description : String) : R1CSError
  | MissingAssignment : R1CSError
  | FormatError : R1CSError
deriving DecidableEq, Repr

/-- Outcome classification for circuit-building code: a catchable `R1CSError`
(propagated by Rust's `?`), or one of the panics that can abort it. -/
inductive CircErr : Type where
  | r1cs (e : R1CSError) : CircErr
  | assertFailed : CircErr
  | indexOOB : CircErr
  | unwrapFailed : CircErr
deriving DecidableEq, Repr

/-- `SboxType` from the source: the two S-box variants. -/
inductive SboxType : Type where
  | Cube : SboxType
  | Inverse : SboxType
deriving DecidableEq, Repr

def exceptOfOption {α : Type} (o : Option α) (e : CircErr) : Except CircErr α :=
  match o with
  | some a => Except.ok a
  | none => Except.error e

section Core

variable {F : Type} [Field F]

def LinComb.ofVar (v : Var) : LinComb F := [(v, 1)]

def LinComb.const (k : F) : LinComb F := [(Var.one, k)]

def LinComb.scale (k : F) (lc : LinComb F) : LinComb F :=
  lc.map (fun t => (t.1, t.2 * k))

/-- `SboxType::apply_sbox`: `Cube` is `(elem * elem) * elem`, `Inverse` is
`elem.invert()` (see the header comment: total, sending zero to zero). -/
def SboxType.apply_sbox (sb : SboxType) (elem : F) : F :=
  match sb with
  | .Cube => (elem * elem) * elem
  | .Inverse => elem⁻¹

/-- `PoseidonParams` from the source.  The source names the count of rounds with
the reduced S-box layer with a field whose name cannot be used here; it is
called `mid_rounds` ("middle partial Sbox rounds" in the source's comments). -/
structure PoseidonParams (F : Type) where
  width : ℕ
  full_rounds_beginning : ℕ
  full_rounds_end : ℕ
  mid_rounds : ℕ
  round_keys : List F
  MDS_matrix : List (List F)
deriving DecidableEq, Repr

def PoseidonParams.total_rounds (p : PoseidonParams F) : ℕ :=
  p.full_rounds_beginning + p.mid_rounds + p.full_rounds_end

/-- Well-formedness of a parameter set, from the data model of the spec:
positive width, a round-key table of length exactly `total_rounds * width`,
and a `width × width` mixing matrix. -/
def PoseidonParams.WellFormed (p : PoseidonParams F) : Prop :=
  0 < p.width ∧
  p.round_keys.length = p.total_rounds * p.width ∧
  p.MDS_matrix.length = p.width ∧
  ∀ row ∈ p.MDS_matrix, row.length = p.width

/-- `PoseidonParams::gen_round_keys`, translated from the source with the static
table abstracted.  Modelled from the spec: the static table `ROUND_CONSTS` of
`poseidon_constants` and the hex decoding of `scalar_utils` are not under
`src/`; the table is abstracted as a list of already-decoded field elements.
The panic when the table is shorter than `total_rounds * width` is `none`;
otherwise the first `total_rounds * width` entries are taken, in order. -/
def gen_round_keys (ROUND_CONSTS : List F) (width total_rounds : ℕ) :
    Option (List F) :=
  if ROUND_CONSTS.length < total_rounds * width then none
  else some (ROUND_CONSTS.take (total_rounds * width))

/-- `PoseidonParams::gen_MDS_matrix`, translated from the source with the static
table abstracted (see `gen_round_keys`).  It panics — here `none` — when the
table does not have `width` rows, or when some row does not have `width`
entries; otherwise the matrix is the (decoded) table itself. -/
def gen_MDS_matrix (MDS_ENTRIES : List (List F)) (width : ℕ) :
    Option (List (List F)) :=
  if MDS_ENTRIES.length ≠ width then none
  else if MDS_ENTRIES.all (fun row => row.length == width) then some MDS_ENTRIES
  else none

/-- `PoseidonParams::new`: builds the round keys, then the matrix, then the
fully-populated parameter object; any table failure aborts the construction
(`none`), so no partially-initialized object can be produced. -/
def PoseidonParams.new (ROUND_CONSTS : List F) (MDS_ENTRIES : List (List F))
    (width full_rounds_beginning full_rounds_end mid_rounds : ℕ) :
    Option (PoseidonParams F) :=
  match gen_round_keys ROUND_CONSTS width
      (full_rounds_beginning + mid_rounds + full_rounds_end) with
  | none => none
  | some rk =>
    match gen_MDS_matrix MDS_ENTRIES width with
    | none => none
    | some m =>
      some ⟨width, full_rounds_beginning, full_rounds_end, mid_rounds, rk, m⟩

/-- The round schedule of `Poseidon_permutation`'s three loops: `true` marks a
full round, `false` a round with the reduced S-box layer. -/
def PoseidonParams.phases (p : PoseidonParams F) : List Bool :=
  List.replicate p.full_rounds_beginning true ++
    List.replicate p.mid_rounds false ++
    List.replicate p.full_rounds_end true

/-- The S-box layer of one native round over the listed state indices:
position `i` receives round key `round_keys[off + i]` and, when selected by
`sel`, the S-box.  Key lookups are partial (`none` = index panic).  In the
source, full rounds select every position, while rounds of the middle phase
add the key to every position and S-box only `width-1` (see `roundN`). -/
def keyedSboxListN (sbox : SboxType) (rk : List F) (s : List F) (sel : ℕ → Bool)
    (off : ℕ) : List ℕ → Option (List F)
  | [] => some []
  | i :: rest =>
    match rk[off + i]? with
    | none => none
    | some k =>
      match keyedSboxListN sbox rk s sel off rest with
      | none => none
      | some tail =>
        some ((if sel i then SboxType.apply_sbox sbox (s.getD i 0 + k)
               else s.getD i 0 + k) :: tail)

/-- The inner accumulation `temp += state[j] * MDS[i][j]` of the source's linear
layer, for one output row, over the listed `j` indices. -/
def dotRowN (row : List F) (s : List F) : List ℕ → F → Option F
  | [], acc => some acc
  | j :: rest, acc =>
    match row[j]? with
    | none => none
    | some m => dotRowN row s rest (acc + s.getD j 0 * m)

/-- The rows of the native linear layer over the listed `i` indices. -/
def linRowsN (M : List (List F)) (s : List F) (w : ℕ) : List ℕ → Option (List F)
  | [] => some []
  | i :: rest =>
    match M[i]? with
    | none => none
    | some row =>
      match dotRowN row s (List.range w) 0 with
      | none => none
      | some x =>
        match linRowsN M s w rest with
        | none => none
        | some tail => some (x :: tail)

/-- The source's linear layer: `next[i] = Σ_j state[j] * MDS[i][j]`, accumulated
in index order; matrix accesses are partial. -/
def linearLayerN (w : ℕ) (M : List (List F)) (s : List F) : Option (List F) :=
  linRowsN M s w (List.range w)

/-- One round of `Poseidon_permutation`, on (state, key offset).  A full round
keys and S-boxes every position; a middle-phase round adds the keys to every
position, S-boxes only position `width-1` (the source reads and overwrites
`current_state[width-1]`, a panic when `width = 0`), and both end with the
linear layer.  The key offset advances by `width`. -/
def roundN (w : ℕ) (M : List (List F)) (rk : List F) (sbox : SboxType)
    (full : Bool) (st : List F × ℕ) : Option (List F × ℕ) :=
  if full then
    match keyedSboxListN sbox rk st.1 (fun _ => true) st.2 (List.range w) with
    | none => none
    | some keyed =>
      match linearLayerN w M keyed with
      | none => none
      | some s2 => some (s2, st.2 + w)
  else
    match keyedSboxListN sbox rk st.1 (fun _ => false) st.2 (List.range w) with
    | none => none
    | some keyed =>
      match keyed[w - 1]? with
      | none => none
      | some x =>
        match linearLayerN w M (keyed.set (w - 1) (SboxType.apply_sbox sbox x)) with
        | none => none
        | some s2 => some (s2, st.2 + w)

/-- The three phase loops of `Poseidon_permutation`, folded over the round
schedule with the running (state, key offset). -/
def permAuxN (w : ℕ) (M : List (List F)) (rk : List F) (sbox : SboxType) :
    List Bool → List F × ℕ → Option (List F × ℕ)
  | [], st => some st
  | full :: rest, st =>
    match roundN w M rk sbox full st with
    | none => none
    | some st' => permAuxN w M rk sbox rest st'

/-- `Poseidon_permutation` from the source: asserts the input length equals
`width` (panic = `none`), then runs the full/middle/full round schedule
starting from key offset 0 and returns the final state. -/
def Poseidon_permutation (input : List F) (params : PoseidonParams F)
    (sbox : SboxType) : Option (List F) :=
  if input.length = params.width then
    (permAuxN params.width params.MDS_matrix params.round_keys sbox
        params.phases (input, 0)).map Prod.fst
  else none

/-- `Poseidon_hash_2` from the source: builds the fixed six-element state
`[0, xl, xr, 0, 0, 0]` (independently of `params.width`), permutes it, and
takes the output at position 1 ("never take the first input"). -/
def Poseidon_hash_2 (xl xr : F) (params : PoseidonParams F) (sbox : SboxType) :
    Option F :=
  match Poseidon_permutation [0, xl, xr, 0, 0, 0] params sbox with
  | none => none
  | some out => out[1]?

end Core

/-! ### The constraint-system model (circuit side) -/

/-- The bulletproofs constraint-system state, covering both roles: `prover` is
`true` for a `Prover` (wire assignments known) and `false` for a `Verifier`
(no assignments; every stored value is `none`).  `commVals` are the values of
the committed high-level variables (a `Prover`'s secrets), `aL`/`aR`/`aO` are
the per-multiplier wire assignments, `pending` is the crate's
`pending_multiplier` slot used by `allocate`, and `constraints` collects the
emitted linear constraints, each read as `lc = 0`. -/
structure CS (F : Type) where
  prover : Bool
  commVals : List (Option F)
  aL : List (Option F)
  aR : List (Option F)
  aO : List (Option F)
  pending : Option ℕ
  constraints : List (LinComb F)
deriving DecidableEq, Repr

/-- Modelled from the spec: `r1cs_utils::AllocatedScalar` (not under `src/`), a
committed circuit variable together with an optional concrete value (present
for a prover, absent for a verifier).  The source's field name `variable` is a
keyword here and becomes `var`. -/
structure AllocatedScalar (F : Type) where
  var : Var
  assignment : Option F
deriving DecidableEq, Repr

section Circuit

variable {F : Type} [Field F]

/-- The value of one circuit variable under the constraint system's (possibly
absent) assignments. -/
def CS.varVal (cs : CS F) : Var → Option F
  | .one => some 1
  | .comm i => (cs.commVals[i]?).join
  | .mulL i => (cs.aL[i]?).join
  | .mulR i => (cs.aR[i]?).join
  | .mulO i => (cs.aO[i]?).join

/-- Evaluation of a linear combination: the sum of coefficient times variable
value, defined when every mentioned variable has a value. -/
def CS.evalLC (cs : CS F) : LinComb F → Option F
  | [] => some 0
  | (v, c) :: rest =>
    match cs.varVal v with
    | none => none
    | some x =>
      match cs.evalLC rest with
      | none => none
      | some r => some (c * x + r)

/-- The trait method `evaluate_lc`: a `Prover` evaluates the combination under
its witness, a `Verifier` returns nothing. -/
def CS.evaluate_lc (cs : CS F) (lc : LinComb F) : Option F :=
  if cs.prover then cs.evalLC lc else none

/-- `ConstraintSystem::multiply`: allocates a fresh multiplier `n`, assigns its
left/right wires the evaluations of the two combinations (a verifier stores
nothing) and its output wire their product, and emits the two linear
constraints `l - mulL n = 0` and `r - mulR n = 0`. -/
def CS.multiply (cs : CS F) (l r : LinComb F) : (Var × Var × Var) × CS F :=
  let n := cs.aL.length
  let lv := if cs.prover then cs.evalLC l else none
  let rv := if cs.prover then cs.evalLC r else none
  ((Var.mulL n, Var.mulR n, Var.mulO n),
    { cs with
      aL := cs.aL ++ [lv]
      aR := cs.aR ++ [rv]
      aO := cs.aO ++ [match lv, rv with
                      | some a, some b => some (a * b)
                      | _, _ => none]
      constraints := cs.constraints ++
        [l ++ [(Var.mulL n, -1)], r ++ [(Var.mulR n, -1)]] })

/-- `ConstraintSystem::constrain`: records a linear constraint `lc = 0`. -/
def CS.constrain (cs : CS F) (lc : LinComb F) : CS F :=
  { cs with constraints := cs.constraints ++ [lc] }

/-- `ConstraintSystem::allocate`: a prover requires the concrete value
(`MissingAssignment` otherwise); with no pending multiplier a fresh one is
opened and its left wire returned, otherwise the pending multiplier's right
wire is assigned and its output wire becomes the product of its two inputs. -/
def CS.allocate (cs : CS F) (x : Option F) : Except CircErr (Var × CS F) :=
  if cs.prover && x.isNone then
    Except.error (CircErr.r1cs R1CSError.MissingAssignment)
  else
    match cs.pending with
    | none =>
      let n := cs.aL.length
      Except.ok (Var.mulL n,
        { cs with
          aL := cs.aL ++ [if cs.prover then x else none]
          aR := cs.aR ++ [none]
          aO := cs.aO ++ [none]
          pending := some n })
    | some i =>
      let xv := if cs.prover then x else none
      Except.ok (Var.mulR i,
        { cs with
          aR := cs.aR.set i xv
          aO := cs.aO.set i (match (cs.aL[i]?).join, xv with
                             | some a, some b => some (a * b)
                             | _, _ => none)
          pending := none })

/-- `ConstraintSystem::allocate_single`: one `allocate`; a completed pair also
returns the multiplier's output wire. -/
def CS.allocate_single (cs : CS F) (x : Option F) :
    Except CircErr ((Var × Option Var) × CS F) :=
  match cs.allocate x with
  | Except.error e => Except.error e
  | Except.ok (v, cs') =>
    match v with
    | Var.mulL i => Except.ok ((Var.mulL i, none), cs')
    | Var.mulR i => Except.ok ((Var.mulR i, some (Var.mulO i)), cs')
    | _ => Except.error (CircErr.r1cs R1CSError.FormatError)

/-- Modelled from the spec: `r1cs_utils::constrain_lc_with_scalar` (not under
`src/`): adds the equality-to-constant constraint `lc = s`, i.e. constrains
`lc - s` to zero. -/
def constrain_lc_with_scalar (cs : CS F) (lc : LinComb F) (s : F) : CS F :=
  cs.constrain (lc ++ [(Var.one, -s)])

/-- Modelled from the spec: `gadget_zero_nonzero::is_nonzero_gadget` (not under
`src/`).  Per the external-interface description it receives the committed
value pair and its claimed-inverse pair and asserts the value is not the
additive identity; with the inverse available this is the canonical product
argument, modelled as one multiplication gate on the two committed variables
whose output wire is constrained to equal one.  Its gates and constraints
depend only on the variables, never on whether their values are present. -/
def is_nonzero_gadget (cs : CS F) (x x_inv : AllocatedScalar F) :
    Except CircErr (Unit × CS F) :=
  let r := cs.multiply (LinComb.ofVar x.var) (LinComb.ofVar x_inv.var)
  Except.ok ((), constrain_lc_with_scalar r.2 (LinComb.ofVar r.1.2.2) 1)

/-- `synthesize_cube_sbox`: adds the round key to the input combination, squares
it with one multiplication gate, cubes it with a second (multiplying the square
output wire by the first gate's left wire), and returns the cube output wire. -/
def synthesize_cube_sbox (cs : CS F) (input_var : LinComb F) (round_key : F) :
    Except CircErr (Var × CS F) :=
  let inp_plus_const : LinComb F := input_var ++ LinComb.const round_key
  let r1 := cs.multiply inp_plus_const inp_plus_const
  let r2 := r1.2.multiply (LinComb.ofVar r1.1.2.2) (LinComb.ofVar r1.1.1)
  Except.ok (r2.1.2.2, r2.2)

/-- `synthesize_inverse_sbox`: adds the round key to the input combination,
evaluates it under the current witness (a verifier gets nothing) and inverts
the value, allocates the value and its claimed inverse as one multiplier pair,
runs the external non-zero gadget on them, constrains the pair's output wire
to one (the source unwraps it: `none` is a panic), and returns the inverse
wire. -/
def synthesize_inverse_sbox (cs : CS F) (input_var : LinComb F) (round_key : F) :
    Except CircErr (Var × CS F) :=
  let inp_plus_const : LinComb F := input_var ++ LinComb.const round_key
  let val_l := cs.evaluate_lc inp_plus_const
  let val_r := val_l.map (fun l => l⁻¹)
  match cs.allocate_single val_l with
  | Except.error e => Except.error e
  | Except.ok ((var_l, _), cs1) =>
    match cs1.allocate_single val_r with
    | Except.error e => Except.error e
    | Except.ok ((var_r, var_o), cs2) =>
      match is_nonzero_gadget cs2 ⟨var_l, val_l⟩ ⟨var_r, val_r⟩ with
      | Except.error e => Except.error e
      | Except.ok ((), cs3) =>
        match var_o with
        | none => Except.error CircErr.unwrapFailed
        | some vo =>
          Except.ok (var_r, constrain_lc_with_scalar cs3 (LinComb.ofVar vo) 1)

/-- `SboxType::synthesize_sbox`: dispatches on the variant.  The source's match
carries a third arm returning `GadgetError "inverse not implemented"`, but with
only the two variants `Cube` and `Inverse` that arm is unreachable dead code
and has no counterpart here (Lean rejects redundant alternatives). -/
def SboxType.synthesize_sbox (sb : SboxType) (cs : CS F)
    (input_var : LinComb F) (round_key : F) : Except CircErr (Var × CS F) :=
  match sb with
  | .Cube => synthesize_cube_sbox cs input_var round_key
  | .Inverse => synthesize_inverse_sbox cs input_var round_key

/-- The S-box layer of one circuit round over the listed state indices, from
`Poseidon_permutation_constraints`: position `i` reads round key
`round_keys[off + i]` (a partial lookup); a position selected by `sel` becomes
the wire returned by `synthesize_sbox`, an unselected one carries
`combination + round_key` forward without touching the constraint system. -/
def sboxOutputsC (sbox : SboxType) (rk : List F) (lcs : List (LinComb F))
    (sel : ℕ → Bool) (off : ℕ) : List ℕ → CS F →
    Except CircErr (List (LinComb F) × CS F)
  | [], cs => Except.ok ([], cs)
  | i :: rest, cs =>
    match rk[off + i]? with
    | none => Except.error CircErr.indexOOB
    | some k =>
      if sel i then
        match SboxType.synthesize_sbox sbox cs (lcs.getD i []) k with
        | Except.error e => Except.error e
        | Except.ok (v, cs') =>
          match sboxOutputsC sbox rk lcs sel off rest cs' with
          | Except.error e => Except.error e
          | Except.ok (tail, cs'') => Except.ok (LinComb.ofVar v :: tail, cs'')
      else
        match sboxOutputsC sbox rk lcs sel off rest cs with
        | Except.error e => Except.error e
        | Except.ok (tail, cs'') =>
          Except.ok ((lcs.getD i [] ++ LinComb.const k) :: tail, cs'')

/-- The inner accumulation `next[i] = next[i] + outs[j] * MDS[i][j]` of the
source's `apply_linear_layer`, for one output row. -/
def dotRowC (row : List F) (outs : List (LinComb F)) :
    List ℕ → LinComb F → Option (LinComb F)
  | [], acc => some acc
  | j :: rest, acc =>
    match row[j]? with
    | none => none
    | some m => dotRowC row outs rest (acc ++ LinComb.scale m (outs.getD j []))

/-- The rows of the circuit linear layer over the listed `i` indices. -/
def linRowsC (M : List (List F)) (outs : List (LinComb F)) (w : ℕ) :
    List ℕ → Option (List (LinComb F))
  | [] => some []
  | i :: rest =>
    match M[i]? with
    | none => none
    | some row =>
      match dotRowC row outs (List.range w) [] with
      | none => none
      | some lc =>
        match linRowsC M outs w rest with
        | none => none
        | some tail => some (lc :: tail)

/-- `apply_linear_layer` from the source: pure recombination of the S-box
output combinations by the mixing matrix — no gate is consumed, the constraint
system is not touched.  Matrix accesses are partial (`none` = index panic). -/
def apply_linear_layer (w : ℕ) (sbox_outs : List (LinComb F))
    (M : List (List F)) : Option (List (LinComb F)) :=
  linRowsC M sbox_outs w (List.range w)

/-- One round of `Poseidon_permutation_constraints` on ((combinations, key
offset), constraint system): a full round S-boxes every position, a
middle-phase round only position `width-1`; both end with the linear layer,
and the key offset advances by `width`. -/
def roundC (w : ℕ) (M : List (List F)) (rk : List F) (sbox : SboxType)
    (full : Bool) (st : List (LinComb F) × ℕ) (cs : CS F) :
    Except CircErr ((List (LinComb F) × ℕ) × CS F) :=
  match sboxOutputsC sbox rk st.1
      (if full then fun _ => true else fun i => i == w - 1) st.2
      (List.range w) cs with
  | Except.error e => Except.error e
  | Except.ok (outs, cs') =>
    match apply_linear_layer w outs M with
    | none => Except.error CircErr.indexOOB
    | some next => Except.ok ((next, st.2 + w), cs')

/-- The three phase loops of `Poseidon_permutation_constraints`, folded over
the round schedule. -/
def permAuxC (w : ℕ) (M : List (List F)) (rk : List F) (sbox : SboxType) :
    List Bool → List (LinComb F) × ℕ → CS F →
    Except CircErr ((List (LinComb F) × ℕ) × CS F)
  | [], st, cs => Except.ok (st, cs)
  | full :: rest, st, cs =>
    match roundC w M rk sbox full st cs with
    | Except.error e => Except.error e
    | Except.ok (st', cs') => permAuxC w M rk sbox rest st' cs'

/-- `Poseidon_permutation_constraints` from the source: asserts the input
length equals `width`, turns each allocated input into the combination of its
variable, and runs the round schedule from key offset 0, returning the final
`width` combinations. -/
def Poseidon_permutation_constraints (cs : CS F)
    (input : List (AllocatedScalar F)) (params : PoseidonParams F)
    (sbox_type : SboxType) : Except CircErr (List (LinComb F) × CS F) :=
  if input.length = params.width then
    match permAuxC params.width params.MDS_matrix params.round_keys sbox_type
        params.phases (input.map (fun a => LinComb.ofVar a.var), 0) cs with
    | Except.error e => Except.error e
    | Except.ok ((lcs, _), cs') => Except.ok (lcs, cs')
  else Except.error CircErr.assertFailed

/-- `Poseidon_hash_2_constraints` from the source: asserts
`zeros.len() = width - 2` (stated without subtraction to avoid the unsigned
underflow for `width < 2`, on which the source also aborts), feeds the
permutation `[zeros[0], xl, xr] ++ zeros[1..]`, and returns the permutation's
position-1 output combination. -/
def Poseidon_hash_2_constraints (cs : CS F) (xl xr : AllocatedScalar F)
    (zeros : List (AllocatedScalar F)) (params : PoseidonParams F)
    (sbox_type : SboxType) : Except CircErr (LinComb F × CS F) :=
  if zeros.length + 2 = params.width then
    match zeros[0]? with
    | none => Except.error CircErr.indexOOB
    | some z0 =>
      match Poseidon_permutation_constraints cs
          (z0 :: xl :: xr :: zeros.drop 1) params sbox_type with
      | Except.error e => Except.error e
      | Except.ok (lcs, cs') =>
        match lcs[1]? with
        | none => Except.error CircErr.indexOOB
        | some l => Except.ok (l, cs')
  else Except.error CircErr.assertFailed

/-- The invariant maintained by the gadget code between S-box invocations: no
pending half-allocated multiplier, and the three wire columns have equal
length. -/
def CS.WF (cs : CS F) : Prop :=
  cs.pending = none ∧ cs.aR.length = cs.aL.length ∧ cs.aO.length = cs.aL.length

/-- One constraint system extends another: same role, same committed values,
and every wire value that was present is preserved. -/
def CS.Extends (cs cs' : CS F) : Prop :=
  cs'.prover = cs.prover ∧ cs'.commVals = cs.commVals ∧
    ∀ v x, cs.varVal v = some x → cs'.varVal v = some x

/-- The constraint topology: how many multipliers exist, the pending slot, and
the emitted constraints — everything a verifier shares with a prover. -/
def CS.topo (cs : CS F) : ℕ × Option ℕ × List (LinComb F) :=
  (cs.aL.length, cs.pending, cs.constraints)

/-- The native permutation followed by selection of the position-1 output —
the composition the 2:1 hash is claimed to equal on its fed state. -/
def permThenOne (params : PoseidonParams F) (sbox : SboxType) (s : List F) :
    Option F :=
  match Poseidon_permutation s params sbox with
  | none => none
  | some out => out[1]?

/-- The circuit permutation followed by selection of the position-1 output
combination. -/
def permThenOneC (cs : CS F) (inputs : List (AllocatedScalar F))
    (params : PoseidonParams F) (sbox : SboxType) :
    Except CircErr (LinComb F × CS F) :=
  match Poseidon_permutation_constraints cs inputs params sbox with
  | Except.error e => Except.error e
  | Except.ok (lcs, cs') =>
    match lcs[1]? with
    | none => Except.error CircErr.indexOOB
    | some l => Except.ok (l, cs')

end Circuit

/-! ### Concrete fixtures over `ZMod 5`, used by witnesses -/

instance {F : Type} (cs : CS F) : Decidable cs.WF :=
  inferInstanceAs (Decidable (cs.pending = none ∧
    cs.aR.length = cs.aL.length ∧ cs.aO.length = cs.aL.length))

instance {F : Type} [Field F] (p : PoseidonParams F) :
    Decidable p.WellFormed :=
  inferInstanceAs (Decidable (0 < p.width ∧
    p.round_keys.length = p.total_rounds * p.width ∧
    p.MDS_matrix.length = p.width ∧
    ∀ row ∈ p.MDS_matrix, row.length = p.width))

instance : Fact (Nat.Prime 5) := ⟨by norm_num⟩

/-- A tiny but complete parameter set over `ZMod 5`: width 1, one full round,
one middle round, one final full round, three round keys, a 1×1 matrix. -/
def paramsW1 : PoseidonParams (ZMod 5) :=
  { width := 1, full_rounds_beginning := 1, full_rounds_end := 1,
    mid_rounds := 1, round_keys := [1, 2, 3], MDS_matrix := [[2]] }

/-- A width-2 parameter set with a single middle-phase round. -/
def paramsW2 : PoseidonParams (ZMod 5) :=
  { width := 2, full_rounds_beginning := 0, full_rounds_end := 0,
    mid_rounds := 1, round_keys := [1, 2], MDS_matrix := [[1, 2], [3, 4]] }

/-- A prover-role constraint system holding one committed value `3`. -/
def csP1 : CS (ZMod 5) :=
  { prover := true, commVals := [some 3], aL := [], aR := [], aO := [],
    pending := none, constraints := [] }

/-- A prover-role constraint system holding committed values `3` and `4`. -/
def csP2 : CS (ZMod 5) :=
  { prover := true, commVals := [some 3, some 4], aL := [], aR := [],
    aO := [], pending := none, constraints := [] }

/-- A verifier-role constraint system with the same (empty) topology. -/
def csV1 : CS (ZMod 5) :=
  { prover := false, commVals := [none], aL := [], aR := [], aO := [],
    pending := none, constraints := [] }

/-- The allocated input for the width-1 fixture. -/
def inputW1 : List (AllocatedScalar (ZMod 5)) := [⟨Var.comm 0, some 3⟩]

/-- A well-formed width-4 parameter set (zero rounds). -/
def params4 : PoseidonParams (ZMod 5) :=
  { width := 4, full_rounds_beginning := 0, full_rounds_end := 0,
    mid_rounds := 0, round_keys := [],
    MDS_matrix := [[1, 0, 0, 0], [0, 1, 0, 0], [0, 0, 1, 0], [0, 0, 0, 1]] }

/-- A well-formed width-3 parameter set (zero rounds). -/
def params3 : PoseidonParams (ZMod 5) :=
  { width := 3, full_rounds_beginning := 0, full_rounds_end := 0,
    mid_rounds := 0, round_keys := [],
    MDS_matrix := [[1, 0, 0], [0, 1, 0], [0, 0, 1]] }

/-- Committed hash inputs and a zero variable for the circuit 2:1 hash. -/
def xlA : AllocatedScalar (ZMod 5) := ⟨Var.comm 0, some 1⟩

def xrA : AllocatedScalar (ZMod 5) := ⟨Var.comm 1, some 2⟩

def zeros3 : List (AllocatedScalar (ZMod 5)) := [⟨Var.comm 2, some 0⟩]

/-- A well-formed width-6 parameter set (zero rounds). -/
def params6 : PoseidonParams (ZMod 5) :=
  { width := 6, full_rounds_beginning := 0, full_rounds_end := 0,
    mid_rounds := 0, round_keys := [],
    MDS_matrix := [[1, 0, 0, 0, 0, 0], [0, 1, 0, 0, 0, 0], [0, 0, 1, 0, 0, 0],
      [0, 0, 0, 1, 0, 0], [0, 0, 0, 0, 1, 0], [0, 0, 0, 0, 0, 1]] }

/-! ### Evaluation and extension lemmas -/

section Lemmas

variable {F : Type} [Field F]

theorem evalLC_append {cs : CS F} {l₁ l₂ : LinComb F} {a b : F}
    (h₁ : cs.evalLC l₁ = some a) (h₂ : cs.evalLC l₂ = some b) :
    cs.evalLC (l₁ ++ l₂) = some (a + b) := by
  induction l₁ generalizing a with
  | nil =>
    simp only [CS.evalLC, Option.some.injEq] at h₁
    subst h₁
    simpa using h₂
  | cons t rest ih =>
    obtain ⟨v, c⟩ := t
    simp only [CS.evalLC, List.cons_append] at h₁ ⊢
    cases hv : cs.varVal v with
    | none => rw [hv] at h₁; exact absurd h₁ (by simp)
    | some x =>
      rw [hv] at h₁
      cases hr : cs.evalLC rest with
      | none => rw [hr] at h₁; exact absurd h₁ (by simp)
      | some r =>
        rw [hr] at h₁
        simp only [Option.some.injEq] at h₁
        have hr2 : cs.evalLC (rest ++ l₂) = some (r + b) := ih hr
        simp only [List.append_eq] at hr2 ⊢
        rw [hr2]
        simp only [Option.some.injEq]
        rw [← h₁]
        ring

theorem evalLC_const (cs : CS F) (k : F) :
    cs.evalLC (LinComb.const k) = some k := by
  simp [CS.evalLC, LinComb.const, CS.varVal]

theorem evalLC_ofVar {cs : CS F} {v : Var} {x : F} (h : cs.varVal v = some x) :
    cs.evalLC (LinComb.ofVar v) = some x := by
  simp [CS.evalLC, LinComb.ofVar, h]

theorem evalLC_scale {cs : CS F} {lc : LinComb F} {x : F} (k : F)
    (h : cs.evalLC lc = some x) :
    cs.evalLC (LinComb.scale k lc) = some (x * k) := by
  induction lc generalizing x with
  | nil =>
    simp only [CS.evalLC, Option.some.injEq] at h
    subst h
    simp [LinComb.scale, CS.evalLC]
  | cons t rest ih =>
    obtain ⟨v, c⟩ := t
    simp only [CS.evalLC, LinComb.scale, List.map_cons] at h ⊢
    cases hv : cs.varVal v with
    | none => rw [hv] at h; exact absurd h (by simp)
    | some y =>
      rw [hv] at h
      cases hr : cs.evalLC rest with
      | none => rw [hr] at h; exact absurd h (by simp)
      | some r =>
        rw [hr] at h
        simp only [Option.some.injEq] at h
        have hr2 : cs.evalLC (LinComb.scale k rest) = some (r * k) := ih hr
        simp only [LinComb.scale] at hr2
        rw [hr2]
        simp only [Option.some.injEq]
        rw [← h]
        ring

theorem extends_refl (cs : CS F) : cs.Extends cs :=
  ⟨rfl, rfl, fun _ _ h => h⟩

theorem extends_trans {cs cs' cs'' : CS F} (h : cs.Extends cs')
    (h' : cs'.Extends cs'') : cs.Extends cs'' :=
  ⟨h'.1.trans h.1, h'.2.1.trans h.2.1, fun v x hv => h'.2.2 v x (h.2.2 v x hv)⟩

theorem evalLC_mono {cs cs' : CS F} (h : cs.Extends cs') {lc : LinComb F}
    {x : F} (hx : cs.evalLC lc = some x) : cs'.evalLC lc = some x := by
  induction lc generalizing x with
  | nil => simpa [CS.evalLC] using hx
  | cons t rest ih =>
    obtain ⟨v, c⟩ := t
    simp only [CS.evalLC] at hx ⊢
    cases hv : cs.varVal v with
    | none => rw [hv] at hx; exact absurd hx (by simp)
    | some y =>
      rw [hv] at hx
      cases hr : cs.evalLC rest with
      | none => rw [hr] at hx; exact absurd hx (by simp)
      | some r =>
        rw [hr] at hx
        rw [h.2.2 v y hv, ih hr]
        exact hx

theorem join_getElem?_some {l : List (Option F)} {i : ℕ} {x : F}
    (h : (l[i]?).join = some x) : i < l.length ∧ l[i]? = some (some x) := by
  cases hl : l[i]? with
  | none => rw [hl] at h; exact absurd h (by simp)
  | some o =>
    rw [hl] at h
    cases o with
    | none => exact absurd h (by simp)
    | some y =>
      have hy : y = x := by simpa using h
      constructor
      · by_contra hlt
        rw [List.getElem?_eq_none (le_of_not_lt hlt)] at hl
        exact absurd hl (by simp)
      · rw [hy]

theorem extends_of_append (cs : CS F) (u v w : List (Option F)) (p : Option ℕ)
    (cl : List (LinComb F)) :
    cs.Extends { cs with
                 aL := cs.aL ++ u, aR := cs.aR ++ v, aO := cs.aO ++ w,
                 pending := p, constraints := cl } := by
  refine ⟨rfl, rfl, fun vr x hv => ?_⟩
  cases vr with
  | one => exact hv
  | comm i => exact hv
  | mulL i =>
    simp only [CS.varVal] at hv ⊢
    obtain ⟨hlt, he⟩ := join_getElem?_some hv
    rw [List.getElem?_append_left hlt, he]
    rfl
  | mulR i =>
    simp only [CS.varVal] at hv ⊢
    obtain ⟨hlt, he⟩ := join_getElem?_some hv
    rw [List.getElem?_append_left hlt, he]
    rfl
  | mulO i =>
    simp only [CS.varVal] at hv ⊢
    obtain ⟨hlt, he⟩ := join_getElem?_some hv
    rw [List.getElem?_append_left hlt, he]
    rfl

theorem extends_of_set (cs : CS F) (n : ℕ) (b c : Option F) (p : Option ℕ)
    (hR : (cs.aR[n]?).join = none) (hO : (cs.aO[n]?).join = none) :
    cs.Extends { cs with
                 aR := cs.aR.set n b, aO := cs.aO.set n c,
                 pending := p } := by
  refine ⟨rfl, rfl, fun vr x hv => ?_⟩
  cases vr with
  | one => exact hv
  | comm i => exact hv
  | mulL i => exact hv
  | mulR i =>
    simp only [CS.varVal] at hv ⊢
    by_cases hi : n = i
    · subst hi; rw [hR] at hv; exact absurd hv (by simp)
    · rw [List.getElem?_set_ne hi]; exact hv
  | mulO i =>
    simp only [CS.varVal] at hv ⊢
    by_cases hi : n = i
    · subst hi; rw [hO] at hv; exact absurd hv (by simp)
    · rw [List.getElem?_set_ne hi]; exact hv

theorem varVal_constrain (cs : CS F) (lc : LinComb F) (v : Var) :
    (cs.constrain lc).varVal v = cs.varVal v := by
  cases v <;> rfl

theorem extends_constrain (cs : CS F) (lc : LinComb F) :
    cs.Extends (cs.constrain lc) :=
  ⟨rfl, rfl, fun v x hv => by rw [varVal_constrain]; exact hv⟩

/-! ### `multiply` specification -/

theorem multiply_shape (cs : CS F) (l r : LinComb F) :
    (cs.multiply l r).1 =
      (Var.mulL cs.aL.length, Var.mulR cs.aL.length, Var.mulO cs.aL.length) ∧
    ((cs.multiply l r).2).prover = cs.prover ∧
    ((cs.multiply l r).2).commVals = cs.commVals ∧
    ((cs.multiply l r).2).aL.length = cs.aL.length + 1 ∧
    ((cs.multiply l r).2).pending = cs.pending ∧
    ((cs.multiply l r).2).constraints = cs.constraints ++
      [l ++ [(Var.mulL cs.aL.length, -1)], r ++ [(Var.mulR cs.aL.length, -1)]] := by
  refine ⟨rfl, rfl, rfl, ?_, rfl, rfl⟩
  simp [CS.multiply]

theorem multiply_extends (cs : CS F) (l r : LinComb F) :
    cs.Extends (cs.multiply l r).2 :=
  extends_of_append cs _ _ _ _ _

theorem multiply_wf {cs : CS F} (hwf : cs.WF) (l r : LinComb F) :
    ((cs.multiply l r).2).WF := by
  obtain ⟨hp, hR, hO⟩ := hwf
  exact ⟨hp, by simp [CS.multiply, hR], by simp [CS.multiply, hO]⟩

theorem multiply_varVal {cs : CS F} {l r : LinComb F} {a b : F}
    (hp : cs.prover = true) (hwf : cs.WF)
    (ha : cs.evalLC l = some a) (hb : cs.evalLC r = some b) :
    ((cs.multiply l r).2).varVal (Var.mulL cs.aL.length) = some a ∧
    ((cs.multiply l r).2).varVal (Var.mulR cs.aL.length) = some b ∧
    ((cs.multiply l r).2).varVal (Var.mulO cs.aL.length) = some (a * b) := by
  obtain ⟨_, hR, hO⟩ := hwf
  refine ⟨?_, ?_, ?_⟩
  · simp only [CS.multiply, CS.varVal, hp, ha, if_true]
    rw [List.getElem?_concat_length]
    rfl
  · simp only [CS.multiply, CS.varVal, hp, hb, if_true]
    rw [← hR, List.getElem?_concat_length]
    rfl
  · simp only [CS.multiply, CS.varVal, hp, ha, hb, if_true]
    rw [← hO, List.getElem?_concat_length]
    rfl

theorem wf_constrain {cs : CS F} (hwf : cs.WF) (lc : LinComb F) :
    (cs.constrain lc).WF := hwf

theorem evalLC_add_const {cs : CS F} {lc : LinComb F} {x : F} (k : F)
    (h : cs.evalLC lc = some x) :
    cs.evalLC (lc ++ LinComb.const k) = some (x + k) :=
  evalLC_append h (evalLC_const cs k)

/-! ### S-box circuit specifications (prover role, evaluable input) -/

theorem synthesize_cube_sbox_spec {cs : CS F} {lc : LinComb F} {x : F} (k : F)
    (hp : cs.prover = true) (hwf : cs.WF) (h : cs.evalLC lc = some x) :
    ∃ cs₂, synthesize_cube_sbox cs lc k =
        Except.ok (Var.mulO (cs.aL.length + 1), cs₂) ∧
      cs.Extends cs₂ ∧ cs₂.WF ∧ cs₂.prover = true ∧
      cs₂.varVal (Var.mulO (cs.aL.length + 1)) =
        some (SboxType.apply_sbox SboxType.Cube (x + k)) := by
  have hev : cs.evalLC (lc ++ LinComb.const k) = some (x + k) :=
    evalLC_add_const k h
  set ipc : LinComb F := lc ++ LinComb.const k with hipc
  set cs₁ := (cs.multiply ipc ipc).2 with hcs₁
  obtain ⟨hv1L, hv1R, hv1O⟩ := multiply_varVal hp hwf hev hev
  have hext1 : cs.Extends cs₁ := multiply_extends cs ipc ipc
  have hwf1 : cs₁.WF := multiply_wf hwf ipc ipc
  have hp1 : cs₁.prover = true := by
    rw [(multiply_shape cs ipc ipc).2.1, hp]
  have hlen1 : cs₁.aL.length = cs.aL.length + 1 :=
    (multiply_shape cs ipc ipc).2.2.2.1
  have hevO : cs₁.evalLC (LinComb.ofVar (Var.mulO cs.aL.length)) =
      some ((x + k) * (x + k)) := evalLC_ofVar hv1O
  have hevL : cs₁.evalLC (LinComb.ofVar (Var.mulL cs.aL.length)) =
      some (x + k) := evalLC_ofVar hv1L
  set cs₂ := (cs₁.multiply (LinComb.ofVar (Var.mulO cs.aL.length))
      (LinComb.ofVar (Var.mulL cs.aL.length))).2 with hcs₂
  obtain ⟨_, _, hv2O⟩ := multiply_varVal hp1 hwf1 hevO hevL
  refine ⟨cs₂, ?_, extends_trans hext1 (multiply_extends _ _ _),
    multiply_wf hwf1 _ _, ?_, ?_⟩
  · show Except.ok (Var.mulO cs₁.aL.length, cs₂) =
      Except.ok (Var.mulO (cs.aL.length + 1), cs₂)
    rw [hlen1]
  · rw [(multiply_shape cs₁ _ _).2.1, hp1]
  · rw [← hlen1]
    exact hv2O

theorem synthesize_inverse_sbox_spec {cs : CS F} {lc : LinComb F} {x : F} (k : F)
    (hp : cs.prover = true) (hwf : cs.WF) (h : cs.evalLC lc = some x) :
    ∃ cs₄, synthesize_inverse_sbox cs lc k =
        Except.ok (Var.mulR cs.aL.length, cs₄) ∧
      cs.Extends cs₄ ∧ cs₄.WF ∧ cs₄.prover = true ∧
      cs₄.varVal (Var.mulR cs.aL.length) =
        some (SboxType.apply_sbox SboxType.Inverse (x + k)) := by
  obtain ⟨pv, cv, aLv, aRv, aOv, pd, cns⟩ := cs
  obtain ⟨hpend, hR, hO⟩ := hwf
  simp only at hp hpend hR hO
  subst hp
  subst hpend
  have hev : CS.evalLC ⟨true, cv, aLv, aRv, aOv, none, cns⟩
      (lc ++ LinComb.const k) = some (x + k) := evalLC_add_const k h
  have hvl : CS.evaluate_lc ⟨true, cv, aLv, aRv, aOv, none, cns⟩
      (lc ++ LinComb.const k) = some (x + k) := by
    simpa [CS.evaluate_lc] using hev
  set n := aLv.length with hn
  set cs₁ : CS F := ⟨true, cv, aLv ++ [some (x + k)], aRv ++ [none],
    aOv ++ [none], some n, cns⟩ with hcs₁
  have ha1 : CS.allocate_single ⟨true, cv, aLv, aRv, aOv, none, cns⟩
      (some (x + k)) = Except.ok ((Var.mulL n, none), cs₁) := by
    simp [CS.allocate_single, CS.allocate, hcs₁]
  have haL1 : cs₁.aL[n]? = some (some (x + k)) := by
    show (aLv ++ [some (x + k)])[aLv.length]? = _
    rw [List.getElem?_concat_length]
  set cs₂ : CS F := ⟨true, cv, aLv ++ [some (x + k)],
    (aRv ++ [none]).set n (some (x + k)⁻¹),
    (aOv ++ [none]).set n (some ((x + k) * (x + k)⁻¹)), none, cns⟩ with hcs₂
  have ha2 : cs₁.allocate_single (some (x + k)⁻¹) =
      Except.ok ((Var.mulR n, some (Var.mulO n)), cs₂) := by
    simp only [CS.allocate_single, CS.allocate, hcs₁, Option.isNone_some,
      Bool.and_false, Bool.false_eq_true, if_false]
    rw [show (⟨true, cv, aLv ++ [some (x + k)], aRv ++ [none], aOv ++ [none],
        some n, cns⟩ : CS F).aL[n]? = some (some (x + k)) from haL1]
    rfl
  have heq : synthesize_inverse_sbox ⟨true, cv, aLv, aRv, aOv, none, cns⟩ lc k =
      Except.ok (Var.mulR n,
        constrain_lc_with_scalar
          (constrain_lc_with_scalar
            (cs₂.multiply (LinComb.ofVar (Var.mulL n))
              (LinComb.ofVar (Var.mulR n))).2
            (LinComb.ofVar (Var.mulO cs₂.aL.length)) 1)
          (LinComb.ofVar (Var.mulO n)) 1) := by
    simp only [synthesize_inverse_sbox, hvl, Option.map_some', ha1, ha2,
      is_nonzero_gadget]
    rfl
  have hext1 : CS.Extends ⟨true, cv, aLv, aRv, aOv, none, cns⟩ cs₁ :=
    extends_of_append ⟨true, cv, aLv, aRv, aOv, none, cns⟩
      [some (x + k)] [none] [none] (some n) cns
  have haR1 : (cs₁.aR[n]?).join = none := by
    show ((aRv ++ [none])[n]?).join = none
    rw [← hR, List.getElem?_concat_length]
    rfl
  have haO1 : (cs₁.aO[n]?).join = none := by
    show ((aOv ++ [none])[n]?).join = none
    rw [← hO, List.getElem?_concat_length]
    rfl
  have hext2 : cs₁.Extends cs₂ :=
    extends_of_set cs₁ n (some (x + k)⁻¹) (some ((x + k) * (x + k)⁻¹)) none
      haR1 haO1
  have hwf2 : cs₂.WF := by
    refine ⟨rfl, ?_, ?_⟩ <;>
      simp [hcs₂, hR, hO]
  have hp2 : cs₂.prover = true := rfl
  have hvR2 : cs₂.varVal (Var.mulR n) = some ((x + k)⁻¹) := by
    have hlt : n < (aRv ++ [none]).length := by
      simp [hn, hR]
    show ((cs₂.aR)[n]?).join = some ((x + k)⁻¹)
    have harr : cs₂.aR = (aRv ++ [none]).set n (some (x + k)⁻¹) := rfl
    rw [harr, List.getElem?_set_eq_of_lt _ hlt]
    rfl
  set cs₃ := (cs₂.multiply (LinComb.ofVar (Var.mulL n))
      (LinComb.ofVar (Var.mulR n))).2 with hcs₃
  have hext3 : cs₂.Extends cs₃ := multiply_extends cs₂ _ _
  set cs₄ := constrain_lc_with_scalar
      (constrain_lc_with_scalar cs₃ (LinComb.ofVar (Var.mulO cs₂.aL.length)) 1)
      (LinComb.ofVar (Var.mulO n)) 1 with hcs₄
  have hext4 : cs₃.Extends cs₄ :=
    extends_trans (extends_constrain _ _) (extends_constrain _ _)
  have hextAll : CS.Extends ⟨true, cv, aLv, aRv, aOv, none, cns⟩ cs₄ :=
    extends_trans hext1 (extends_trans hext2 (extends_trans hext3 hext4))
  have hwf4 : cs₄.WF := wf_constrain (wf_constrain (multiply_wf hwf2 _ _) _) _
  refine ⟨cs₄, heq, hextAll, hwf4, ?_, ?_⟩
  · show cs₃.prover = true
    rw [(multiply_shape cs₂ _ _).2.1, hp2]
  · exact (extends_trans hext3 hext4).2.2 _ _ hvR2

theorem synthesize_sbox_spec (sb : SboxType) {cs : CS F} {lc : LinComb F}
    {x : F} (k : F) (hp : cs.prover = true) (hwf : cs.WF)
    (h : cs.evalLC lc = some x) :
    ∃ v cs', SboxType.synthesize_sbox sb cs lc k = Except.ok (v, cs') ∧
      cs.Extends cs' ∧ cs'.WF ∧ cs'.prover = true ∧
      cs'.varVal v = some (SboxType.apply_sbox sb (x + k)) := by
  cases sb with
  | Cube =>
    obtain ⟨cs', h1, h2, h3, h4, h5⟩ := synthesize_cube_sbox_spec k hp hwf h
    exact ⟨_, cs', h1, h2, h3, h4, h5⟩
  | Inverse =>
    obtain ⟨cs', h1, h2, h3, h4, h5⟩ := synthesize_inverse_sbox_spec k hp hwf h
    exact ⟨_, cs', h1, h2, h3, h4, h5⟩

/-! ### Characterization of the native S-box layer -/

theorem keyedSboxListN_bounds {sbox : SboxType} {rk : List F} {s : List F}
    {sel : ℕ → Bool} {off : ℕ} :
    ∀ {idxs : List ℕ} {out : List F},
    keyedSboxListN sbox rk s sel off idxs = some out →
    ∀ i ∈ idxs, off + i < rk.length := by
  intro idxs
  induction idxs with
  | nil => intro out _ i hi; exact absurd hi (List.not_mem_nil i)
  | cons j rest ih =>
    intro out hout i hi
    simp only [keyedSboxListN] at hout
    cases hk : rk[off + j]? with
    | none => rw [hk] at hout; exact absurd hout (by simp)
    | some k =>
      rw [hk] at hout
      cases ht : keyedSboxListN sbox rk s sel off rest with
      | none => rw [ht] at hout; exact absurd hout (by simp)
      | some tail =>
        rcases List.mem_cons.mp hi with hij | hmem
        · subst hij
          by_contra hge
          rw [List.getElem?_eq_none (le_of_not_lt hge)] at hk
          exact absurd hk (by simp)
        · exact ih ht i hmem

theorem keyedSboxListN_map (sbox : SboxType) (rk : List F) (s : List F)
    (sel : ℕ → Bool) (off : ℕ) :
    ∀ (idxs : List ℕ), (∀ i ∈ idxs, off + i < rk.length) →
    keyedSboxListN sbox rk s sel off idxs =
      some (idxs.map (fun i =>
        if sel i then SboxType.apply_sbox sbox (s.getD i 0 + rk.getD (off + i) 0)
        else s.getD i 0 + rk.getD (off + i) 0)) := by
  intro idxs
  induction idxs with
  | nil => intro _; rfl
  | cons j rest ih =>
    intro hb
    have hj : off + j < rk.length := hb j (List.mem_cons_self j rest)
    simp only [keyedSboxListN, List.getElem?_eq_getElem hj,
      ih (fun i hi => hb i (List.mem_cons_of_mem j hi)), List.map_cons]
    have hrk : rk.getD (off + j) 0 = rk[off + j] := by
      rw [List.getD_eq_getElem?_getD, List.getElem?_eq_getElem hj]
      rfl
    rw [hrk]

/-! ### The prover/native lockstep, layer by layer -/

theorem sboxOutputs_lockstep (sbox : SboxType) (rk : List F)
    (lcs : List (LinComb F)) (s : List F) (sel : ℕ → Bool) (off : ℕ)
    (idxs : List ℕ) :
    ∀ (cs : CS F) (outsN : List F),
    cs.prover = true → cs.WF →
    (∀ i ∈ idxs, cs.evalLC (lcs.getD i []) = some (s.getD i 0)) →
    keyedSboxListN sbox rk s sel off idxs = some outsN →
    ∃ outsC cs', sboxOutputsC sbox rk lcs sel off idxs cs =
        Except.ok (outsC, cs') ∧
      cs.Extends cs' ∧ cs'.WF ∧ cs'.prover = true ∧
      outsC.length = idxs.length ∧ outsN.length = idxs.length ∧
      ∀ r, r < idxs.length →
        cs'.evalLC (outsC.getD r []) = some (outsN.getD r 0) := by
  induction idxs with
  | nil =>
    intro cs outsN hp hwf _ hnat
    simp only [keyedSboxListN, Option.some.injEq] at hnat
    subst hnat
    exact ⟨[], cs, rfl, extends_refl cs, hwf, hp, rfl, rfl,
      fun r hr => absurd hr (by simp)⟩
  | cons i rest ih =>
    intro cs outsN hp hwf hvals hnat
    simp only [keyedSboxListN] at hnat
    cases hk : rk[off + i]? with
    | none => rw [hk] at hnat; exact absurd hnat (by simp)
    | some k =>
      rw [hk] at hnat
      cases ht : keyedSboxListN sbox rk s sel off rest with
      | none => rw [ht] at hnat; exact absurd hnat (by simp)
      | some tailN =>
        rw [ht] at hnat
        simp only [Option.some.injEq] at hnat
        subst hnat
        have hvi : cs.evalLC (lcs.getD i []) = some (s.getD i 0) :=
          hvals i (List.mem_cons_self i rest)
        cases hsel : sel i with
        | false =>
          obtain ⟨tailC, cs', heq, hext, hwf', hp', hlenC, hlenN, hr⟩ :=
            ih cs tailN hp hwf
              (fun j hj => hvals j (List.mem_cons_of_mem i hj)) ht
          refine ⟨(lcs.getD i [] ++ LinComb.const k) :: tailC, cs', ?_, hext,
            hwf', hp', by simp [hlenC], by simp [hlenN, hsel], ?_⟩
          · simp only [sboxOutputsC, hk, hsel, Bool.false_eq_true, if_false,
              heq]
          · intro r hr'
            cases r with
            | zero =>
              simp only [List.getD_cons_zero, hsel, Bool.false_eq_true,
                if_false]
              exact evalLC_mono hext (evalLC_add_const k hvi)
            | succ r' =>
              simp only [List.getD_cons_succ]
              exact hr r' (by simpa using hr')
        | true =>
          obtain ⟨v, cs₁, heq1, hext1, hwf1, hp1, hval1⟩ :=
            synthesize_sbox_spec sbox k hp hwf hvi
          obtain ⟨tailC, cs', heq, hext, hwf', hp', hlenC, hlenN, hr⟩ :=
            ih cs₁ tailN hp1 hwf1
              (fun j hj => evalLC_mono hext1
                (hvals j (List.mem_cons_of_mem i hj))) ht
          refine ⟨LinComb.ofVar v :: tailC, cs', ?_,
            extends_trans hext1 hext, hwf', hp', by simp [hlenC],
            by simp [hlenN, hsel], ?_⟩
          · simp only [sboxOutputsC, hk, hsel, if_true, heq1, heq]
          · intro r hr'
            cases r with
            | zero =>
              simp only [List.getD_cons_zero, hsel, if_true]
              exact evalLC_mono hext (evalLC_ofVar hval1)
            | succ r' =>
              simp only [List.getD_cons_succ]
              exact hr r' (by simpa using hr')

theorem dotRow_lockstep (cs : CS F) (row : List F) (u : List F)
    (outs : List (LinComb F)) (js : List ℕ)
    (hvals : ∀ j ∈ js, cs.evalLC (outs.getD j []) = some (u.getD j 0)) :
    ∀ (acc : LinComb F) (a b : F), cs.evalLC acc = some a →
    dotRowN row u js a = some b →
    ∃ lc, dotRowC row outs js acc = some lc ∧ cs.evalLC lc = some b := by
  induction js with
  | nil =>
    intro acc a b hacc hnat
    simp only [dotRowN, Option.some.injEq] at hnat
    subst hnat
    exact ⟨acc, rfl, hacc⟩
  | cons j rest ih =>
    intro acc a b hacc hnat
    simp only [dotRowN] at hnat
    cases hm : row[j]? with
    | none => rw [hm] at hnat; exact absurd hnat (by simp)
    | some m =>
      rw [hm] at hnat
      have hacc' : cs.evalLC (acc ++ LinComb.scale m (outs.getD j [])) =
          some (a + u.getD j 0 * m) :=
        evalLC_append hacc
          (evalLC_scale m (hvals j (List.mem_cons_self j rest)))
      obtain ⟨lc, heq, hev⟩ :=
        ih (fun j' hj' => hvals j' (List.mem_cons_of_mem j hj')) _ _ _
          hacc' hnat
      exact ⟨lc, by simp only [dotRowC, hm, heq], hev⟩

theorem linRows_lockstep (cs : CS F) (M : List (List F)) (u : List F)
    (outs : List (LinComb F)) (w : ℕ)
    (hvals : ∀ j ∈ List.range w,
      cs.evalLC (outs.getD j []) = some (u.getD j 0)) :
    ∀ (is : List ℕ) (res : List F), linRowsN M u w is = some res →
    ∃ lcr, linRowsC M outs w is = some lcr ∧
      lcr.length = is.length ∧ res.length = is.length ∧
      ∀ r, r < is.length → cs.evalLC (lcr.getD r []) = some (res.getD r 0) := by
  intro is
  induction is with
  | nil =>
    intro res hnat
    simp only [linRowsN, Option.some.injEq] at hnat
    subst hnat
    exact ⟨[], rfl, rfl, rfl, fun r hr => absurd hr (by simp)⟩
  | cons i rest ih =>
    intro res hnat
    simp only [linRowsN] at hnat
    cases hrow : M[i]? with
    | none => rw [hrow] at hnat; exact absurd hnat (by simp)
    | some row =>
      simp only [hrow] at hnat
      cases hx : dotRowN row u (List.range w) 0 with
      | none => rw [hx] at hnat; exact absurd hnat (by simp)
      | some x =>
        rw [hx] at hnat
        cases htail : linRowsN M u w rest with
        | none => rw [htail] at hnat; exact absurd hnat (by simp)
        | some tail =>
          rw [htail] at hnat
          simp only [Option.some.injEq] at hnat
          subst hnat
          obtain ⟨lc, hlc, hev⟩ :=
            dotRow_lockstep cs row u outs (List.range w) hvals []
              0 x (by rfl) hx
          obtain ⟨lcr, heq, hlen1, hlen2, hr⟩ := ih tail htail
          refine ⟨lc :: lcr, ?_, by simp [hlen1], by simp [hlen2], ?_⟩
          · simp only [linRowsC, hrow, hlc, heq]
          · intro r hr'
            cases r with
            | zero => simpa using hev
            | succ r' =>
              simp only [List.getD_cons_succ]
              exact hr r' (by simpa using hr')

/-- In a middle-phase round, keying every position and then S-boxing the last
one equals the per-position form that selects exactly index `w - 1`. -/
theorem keyedSbox_sel_last {sbox : SboxType} {rk s : List F} {off w : ℕ}
    {keyed : List F} {x : F}
    (h : keyedSboxListN sbox rk s (fun _ => false) off (List.range w) =
      some keyed)
    (hx : keyed[w - 1]? = some x) :
    keyedSboxListN sbox rk s (fun i => i == w - 1) off (List.range w) =
      some (keyed.set (w - 1) (SboxType.apply_sbox sbox x)) := by
  have hb := keyedSboxListN_bounds h
  have hmap := keyedSboxListN_map sbox rk s (fun _ => false) off
    (List.range w) hb
  rw [h] at hmap
  simp only [Bool.false_eq_true, if_false, Option.some.injEq] at hmap
  have hlen : keyed.length = w := by rw [hmap]; simp
  have hwlt : w - 1 < w := by
    by_contra hge
    rw [List.getElem?_eq_none (by omega)] at hx
    exact absurd hx (by simp)
  have hxval : x = s.getD (w - 1) 0 + rk.getD (off + (w - 1)) 0 := by
    rw [hmap, List.getElem?_map, List.getElem?_range hwlt] at hx
    simpa using hx.symm
  rw [keyedSboxListN_map sbox rk s (fun i => i == w - 1) off
    (List.range w) hb, hmap]
  refine congrArg some (List.ext_getElem? fun r => ?_)
  by_cases hr : r < w
  · rw [List.getElem?_map, List.getElem?_range hr]
    by_cases hrw : r = w - 1
    · subst hrw
      rw [List.getElem?_set_eq_of_lt _ (by simpa using hwlt)]
      simp [hxval]
    · rw [List.getElem?_set_ne (Ne.symm hrw), List.getElem?_map,
        List.getElem?_range hr]
      simp only [Option.map_some', Option.some.injEq]
      have : (r == w - 1) = false := by
        simpa using hrw
      rw [this]
      simp
  · rw [List.getElem?_eq_none (le_of_not_lt (by simpa using hr)),
      List.getElem?_eq_none]
    rw [List.length_set, List.length_map, List.length_range]
    exact le_of_not_lt hr

/-- One-round lockstep: if the native round succeeds and each input
combination evaluates to the corresponding native state element under a
prover's witness, the circuit round succeeds with combinations that evaluate
to the native round's output state. -/
theorem round_lockstep (w : ℕ) (M : List (List F)) (rk : List F)
    (sbox : SboxType) (full : Bool) {cs : CS F} {lcs : List (LinComb F)}
    {s : List F} {off off' : ℕ} {s' : List F}
    (hp : cs.prover = true) (hwf : cs.WF)
    (hvals : ∀ i, i < w → cs.evalLC (lcs.getD i []) = some (s.getD i 0))
    (hnat : roundN w M rk sbox full (s, off) = some (s', off')) :
    ∃ lcs' cs', roundC w M rk sbox full (lcs, off) cs =
        Except.ok ((lcs', off'), cs') ∧
      cs.Extends cs' ∧ cs'.WF ∧ cs'.prover = true ∧
      lcs'.length = w ∧ s'.length = w ∧
      ∀ i, i < w → cs'.evalLC (lcs'.getD i []) = some (s'.getD i 0) := by
  cases full with
  | true =>
    simp only [roundN, if_true] at hnat
    cases hkey : keyedSboxListN sbox rk s (fun _ => true) off
        (List.range w) with
    | none => rw [hkey] at hnat; exact absurd hnat (by simp)
    | some keyed =>
      simp only [hkey] at hnat
      cases hlin : linearLayerN w M keyed with
      | none => rw [hlin] at hnat; exact absurd hnat (by simp)
      | some s2 =>
        rw [hlin] at hnat
        simp only [Option.some.injEq, Prod.mk.injEq] at hnat
        obtain ⟨hs2, hoff⟩ := hnat
        subst hs2
        obtain ⟨outsC, cs₁, heqC, hext, hwf1, hp1, hlenC, hlenN, hposC⟩ :=
          sboxOutputs_lockstep sbox rk lcs s (fun _ => true) off
            (List.range w) cs keyed hp hwf
            (fun i hi => hvals i (List.mem_range.mp hi)) hkey
        rw [List.length_range] at hlenC hlenN hposC
        obtain ⟨lcr, heqL, hlen1, hlen2, hposL⟩ :=
          linRows_lockstep cs₁ M keyed outsC w
            (fun j hj => hposC j (List.mem_range.mp hj)) (List.range w)
            s2 hlin
        rw [List.length_range] at hlen1 hlen2 hposL
        refine ⟨lcr, cs₁, ?_, hext, hwf1, hp1, hlen1, hlen2, hposL⟩
        simp only [roundC, if_true, heqC, apply_linear_layer, heqL, ← hoff]
  | false =>
    simp only [roundN, Bool.false_eq_true, if_false] at hnat
    cases hkey : keyedSboxListN sbox rk s (fun _ => false) off
        (List.range w) with
    | none => rw [hkey] at hnat; exact absurd hnat (by simp)
    | some keyed =>
      simp only [hkey] at hnat
      cases hx : keyed[w - 1]? with
      | none => rw [hx] at hnat; exact absurd hnat (by simp)
      | some x =>
        simp only [hx] at hnat
        cases hlin : linearLayerN w M
            (keyed.set (w - 1) (SboxType.apply_sbox sbox x)) with
        | none => rw [hlin] at hnat; exact absurd hnat (by simp)
        | some s2 =>
          rw [hlin] at hnat
          simp only [Option.some.injEq, Prod.mk.injEq] at hnat
          obtain ⟨hs2, hoff⟩ := hnat
          subst hs2
          have hsel := keyedSbox_sel_last hkey hx
          obtain ⟨outsC, cs₁, heqC, hext, hwf1, hp1, hlenC, hlenN, hposC⟩ :=
            sboxOutputs_lockstep sbox rk lcs s (fun i => i == w - 1) off
              (List.range w) cs _ hp hwf
              (fun i hi => hvals i (List.mem_range.mp hi)) hsel
          rw [List.length_range] at hlenC hlenN hposC
          obtain ⟨lcr, heqL, hlen1, hlen2, hposL⟩ :=
            linRows_lockstep cs₁ M
              (keyed.set (w - 1) (SboxType.apply_sbox sbox x)) outsC w
              (fun j hj => hposC j (List.mem_range.mp hj)) (List.range w)
              s2 hlin
          rw [List.length_range] at hlen1 hlen2 hposL
          refine ⟨lcr, cs₁, ?_, hext, hwf1, hp1, hlen1, hlen2, hposL⟩
          simp only [roundC, Bool.false_eq_true, if_false, heqC,
            apply_linear_layer, heqL, ← hoff]

/-- Whole-schedule lockstep over the three phases. -/
theorem permAux_lockstep (w : ℕ) (M : List (List F)) (rk : List F)
    (sbox : SboxType) (phasesL : List Bool) :
    ∀ {cs : CS F} {lcs : List (LinComb F)} {s : List F} {off off' : ℕ}
      {s' : List F},
    cs.prover = true → cs.WF → lcs.length = w → s.length = w →
    (∀ i, i < w → cs.evalLC (lcs.getD i []) = some (s.getD i 0)) →
    permAuxN w M rk sbox phasesL (s, off) = some (s', off') →
    ∃ lcs' cs', permAuxC w M rk sbox phasesL (lcs, off) cs =
        Except.ok ((lcs', off'), cs') ∧
      cs.Extends cs' ∧ cs'.WF ∧ cs'.prover = true ∧ lcs'.length = w ∧
      s'.length = w ∧
      ∀ i, i < w → cs'.evalLC (lcs'.getD i []) = some (s'.getD i 0) := by
  induction phasesL with
  | nil =>
    intro cs lcs s off off' s' hp hwf hlen hslen hvals hnat
    simp only [permAuxN, Option.some.injEq, Prod.mk.injEq] at hnat
    obtain ⟨hs, hoff⟩ := hnat
    subst hs
    subst hoff
    exact ⟨lcs, cs, rfl, extends_refl cs, hwf, hp, hlen, hslen, hvals⟩
  | cons full rest ih =>
    intro cs lcs s off off' s' hp hwf hlen hslen hvals hnat
    simp only [permAuxN] at hnat
    cases hrd : roundN w M rk sbox full (s, off) with
    | none => rw [hrd] at hnat; exact absurd hnat (by simp)
    | some st' =>
      simp only [hrd] at hnat
      obtain ⟨s₁, off₁⟩ := st'
      obtain ⟨lcs₁, cs₁, heq1, hext1, hwf1, hp1, hlen1, hslen1, hvals1⟩ :=
        round_lockstep w M rk sbox full hp hwf hvals hrd
      obtain ⟨lcs', cs', heq2, hext2, hwf2, hp2, hlen2, hslen2, hvals2⟩ :=
        ih hp1 hwf1 hlen1 hslen1 hvals1 hnat
      refine ⟨lcs', cs', ?_, extends_trans hext1 hext2, hwf2, hp2, hlen2,
        hslen2, hvals2⟩
      simp only [permAuxC, heq1, heq2]

/-! ### Totality of the native engine on well-formed parameters -/

theorem dotRowN_isSome (row u : List F) (w : ℕ) (hrow : w ≤ row.length) :
    ∀ (js : List ℕ), (∀ j ∈ js, j < w) → ∀ a : F,
    ∃ b, dotRowN row u js a = some b := by
  intro js
  induction js with
  | nil => intro _ a; exact ⟨a, rfl⟩
  | cons j rest ih =>
    intro hb a
    have hj : j < row.length :=
      lt_of_lt_of_le (hb j (List.mem_cons_self j rest)) hrow
    obtain ⟨b, hbb⟩ := ih (fun j' hj' => hb j' (List.mem_cons_of_mem j hj'))
      (a + u.getD j 0 * row[j])
    exact ⟨b, by simp only [dotRowN, List.getElem?_eq_getElem hj]; exact hbb⟩

theorem linRowsN_isSome (M : List (List F)) (u : List F) (w : ℕ)
    (hM : w ≤ M.length) (hrows : ∀ row ∈ M, w ≤ row.length) :
    ∀ (is : List ℕ), (∀ i ∈ is, i < w) →
    ∃ res, linRowsN M u w is = some res ∧ res.length = is.length := by
  intro is
  induction is with
  | nil => intro _; exact ⟨[], rfl, rfl⟩
  | cons i rest ih =>
    intro hb
    have hi : i < M.length :=
      lt_of_lt_of_le (hb i (List.mem_cons_self i rest)) hM
    have hrow : w ≤ M[i].length := hrows M[i] (List.getElem_mem hi)
    obtain ⟨x, hx⟩ := dotRowN_isSome M[i] u w hrow (List.range w)
      (fun j hj => List.mem_range.mp hj) 0
    obtain ⟨tail, htail, hlen⟩ :=
      ih (fun i' hi' => hb i' (List.mem_cons_of_mem i hi'))
    refine ⟨x :: tail, ?_, by simp [hlen]⟩
    simp only [linRowsN, List.getElem?_eq_getElem hi, hx, htail]

theorem keyedSboxListN_isSome (sbox : SboxType) (rk s : List F)
    (sel : ℕ → Bool) (off : ℕ) (idxs : List ℕ)
    (hb : ∀ i ∈ idxs, off + i < rk.length) :
    ∃ out, keyedSboxListN sbox rk s sel off idxs = some out ∧
      out.length = idxs.length :=
  ⟨_, keyedSboxListN_map sbox rk s sel off idxs hb, by simp⟩

theorem roundN_isSome (w : ℕ) (M : List (List F)) (rk : List F)
    (sbox : SboxType) (full : Bool) (s : List F) (off : ℕ)
    (hw : 0 < w) (hb : off + w ≤ rk.length)
    (hM : M.length = w) (hrows : ∀ row ∈ M, row.length = w) :
    ∃ s', roundN w M rk sbox full (s, off) = some (s', off + w) ∧
      s'.length = w := by
  have hbk : ∀ i ∈ List.range w, off + i < rk.length := by
    intro i hi
    have := List.mem_range.mp hi
    omega
  have hM' : w ≤ M.length := le_of_eq hM.symm
  have hrows' : ∀ row ∈ M, w ≤ row.length :=
    fun row hr => le_of_eq (hrows row hr).symm
  cases full with
  | true =>
    obtain ⟨keyed, hkey, hklen⟩ := keyedSboxListN_isSome sbox rk s
      (fun _ => true) off (List.range w) hbk
    obtain ⟨res, hres, hreslen⟩ := linRowsN_isSome M keyed w hM' hrows'
      (List.range w) (fun i hi => List.mem_range.mp hi)
    refine ⟨res, ?_, by simpa using hreslen⟩
    simp only [roundN, if_true, hkey, linearLayerN, hres]
  | false =>
    obtain ⟨keyed, hkey, hklen⟩ := keyedSboxListN_isSome sbox rk s
      (fun _ => false) off (List.range w) hbk
    have hklt : w - 1 < keyed.length := by
      rw [hklen, List.length_range]
      omega
    obtain ⟨res, hres, hreslen⟩ := linRowsN_isSome M
      (keyed.set (w - 1) (SboxType.apply_sbox sbox keyed[w - 1])) w hM'
      hrows' (List.range w) (fun i hi => List.mem_range.mp hi)
    refine ⟨res, ?_, by simpa using hreslen⟩
    simp only [roundN, Bool.false_eq_true, if_false, hkey,
      List.getElem?_eq_getElem hklt, linearLayerN, hres]

theorem permAuxN_isSome (w : ℕ) (M : List (List F)) (rk : List F)
    (sbox : SboxType) (phasesL : List Bool) :
    ∀ (s : List F) (off : ℕ), 0 < w → s.length = w →
    off + phasesL.length * w ≤ rk.length →
    M.length = w → (∀ row ∈ M, row.length = w) →
    ∃ s', permAuxN w M rk sbox phasesL (s, off) =
        some (s', off + phasesL.length * w) ∧ s'.length = w := by
  induction phasesL with
  | nil =>
    intro s off _ hs _ _ _
    exact ⟨s, by simp [permAuxN], hs⟩
  | cons full rest ih =>
    intro s off hw hs hb hM hrows
    have hb1 : off + w ≤ rk.length := by
      simp only [List.length_cons] at hb
      nlinarith
    obtain ⟨s₁, hrd, hs1⟩ := roundN_isSome w M rk sbox full s off hw hb1
      hM hrows
    have hb2 : (off + w) + rest.length * w ≤ rk.length := by
      simp only [List.length_cons] at hb
      nlinarith
    obtain ⟨s', hrest, hs'⟩ := ih s₁ (off + w) hw hs1 hb2 hM hrows
    refine ⟨s', ?_, hs'⟩
    have harith : off + w + rest.length * w = off + (full :: rest).length * w := by
      simp only [List.length_cons]
      ring
    rw [← harith]
    simp only [permAuxN, hrd, hrest]

theorem phases_length (p : PoseidonParams F) :
    p.phases.length = p.total_rounds := by
  simp [PoseidonParams.phases, PoseidonParams.total_rounds]
  ring

/-! ### Classification of the errors circuit allocation can produce -/

theorem allocate_error {cs : CS F} {x : Option F} {e : CircErr}
    (h : cs.allocate x = Except.error e) :
    e = CircErr.r1cs R1CSError.MissingAssignment := by
  unfold CS.allocate at h
  split at h
  · injection h with h
    exact h.symm
  · split at h
    · exact Except.noConfusion h
    · exact Except.noConfusion h

theorem allocate_single_error {cs : CS F} {x : Option F} {e : CircErr}
    (h : cs.allocate_single x = Except.error e) :
    e = CircErr.r1cs R1CSError.MissingAssignment ∨
      e = CircErr.r1cs R1CSError.FormatError := by
  unfold CS.allocate_single at h
  cases ha : cs.allocate x with
  | error e' =>
    rw [ha] at h
    injection h with h
    exact Or.inl (h ▸ allocate_error ha)
  | ok r =>
    obtain ⟨v, cs'⟩ := r
    rw [ha] at h
    cases v with
    | one => injection h with h; exact Or.inr h.symm
    | comm i => injection h with h; exact Or.inr h.symm
    | mulL i => exact Except.noConfusion h
    | mulR i => exact Except.noConfusion h
    | mulO i => injection h with h; exact Or.inr h.symm

/-- The only failures of `synthesize_sbox` are a missing prover assignment, a
format error from single allocation, or the unwrap panic — never a gadget
error with the "inverse not implemented" description, and never an index
panic. -/
theorem synthesize_sbox_error {sb : SboxType} {cs : CS F} {lc : LinComb F}
    {k : F} {e : CircErr}
    (h : SboxType.synthesize_sbox sb cs lc k = Except.error e) :
    e = CircErr.r1cs R1CSError.MissingAssignment ∨
    e = CircErr.r1cs R1CSError.FormatError ∨ e = CircErr.unwrapFailed := by
  cases sb with
  | Cube =>
    exact absurd h (by simp [SboxType.synthesize_sbox, synthesize_cube_sbox])
  | Inverse =>
    simp only [SboxType.synthesize_sbox, synthesize_inverse_sbox] at h
    cases ha1 : cs.allocate_single
        (cs.evaluate_lc (lc ++ LinComb.const k)) with
    | error e1 =>
      simp only [ha1] at h
      injection h with h
      subst h
      rcases allocate_single_error ha1 with h1 | h1
      · exact Or.inl h1
      · exact Or.inr (Or.inl h1)
    | ok r1 =>
      obtain ⟨⟨var_l, vo1⟩, cs1⟩ := r1
      simp only [ha1] at h
      cases ha2 : cs1.allocate_single
          ((cs.evaluate_lc (lc ++ LinComb.const k)).map fun l => l⁻¹) with
      | error e2 =>
        simp only [ha2] at h
        injection h with h
        subst h
        rcases allocate_single_error ha2 with h2 | h2
        · exact Or.inl h2
        · exact Or.inr (Or.inl h2)
      | ok r2 =>
        obtain ⟨⟨var_r, var_o⟩, cs2⟩ := r2
        simp only [ha2, is_nonzero_gadget] at h
        cases var_o with
        | none =>
          injection h with h
          exact Or.inr (Or.inr h.symm)
        | some vo => exact Except.noConfusion h

/-- On well-formed parameters and a state of the right length, the native
permutation never panics, and its output again has length `width`. -/
theorem Poseidon_permutation_defined (params : PoseidonParams F)
    (sbox : SboxType) (input : List F) (hwf : params.WellFormed)
    (hlen : input.length = params.width) :
    ∃ out, Poseidon_permutation input params sbox = some out ∧
      out.length = params.width := by
  obtain ⟨hw, hrk, hM, hrows⟩ := hwf
  obtain ⟨out, hperm, houtlen⟩ := permAuxN_isSome params.width
    params.MDS_matrix params.round_keys sbox params.phases input 0 hw hlen
    (by rw [phases_length, hrk]; omega) hM hrows
  refine ⟨out, ?_, houtlen⟩
  simp only [Poseidon_permutation, if_pos hlen, hperm, Option.map_some']

/-! ### Decomposition of the circuit S-box layer -/

theorem sboxOutputsC_bounds {sbox : SboxType} {rk : List F}
    {lcs : List (LinComb F)} {sel : ℕ → Bool} {off : ℕ} :
    ∀ {idxs : List ℕ} {cs : CS F} {r},
    sboxOutputsC sbox rk lcs sel off idxs cs = Except.ok r →
    ∀ i ∈ idxs, off + i < rk.length := by
  intro idxs
  induction idxs with
  | nil => intro cs r _ i hi; exact absurd hi (List.not_mem_nil i)
  | cons j rest ih =>
    intro cs r h i hi
    simp only [sboxOutputsC] at h
    cases hk : rk[off + j]? with
    | none => rw [hk] at h; exact absurd h (by simp)
    | some k =>
      simp only [hk] at h
      have hj : off + j < rk.length := by
        by_contra hge
        rw [List.getElem?_eq_none (le_of_not_lt hge)] at hk
        exact absurd hk (by simp)
      rcases List.mem_cons.mp hi with rfl | hmem
      · exact hj
      · by_cases hsel : sel j = true
        · simp only [hsel, if_true] at h
          cases hs : SboxType.synthesize_sbox sbox cs (lcs.getD j []) k with
          | error e => rw [hs] at h; exact absurd h (by simp)
          | ok r1 =>
            obtain ⟨v, cs1⟩ := r1
            simp only [hs] at h
            cases ht : sboxOutputsC sbox rk lcs sel off rest cs1 with
            | error e => rw [ht] at h; exact absurd h (by simp)
            | ok r2 => exact ih ht i hmem
        · simp only [Bool.not_eq_true] at hsel
          simp only [hsel, Bool.false_eq_true, if_false] at h
          cases ht : sboxOutputsC sbox rk lcs sel off rest cs with
          | error e => rw [ht] at h; exact absurd h (by simp)
          | ok r2 => exact ih ht i hmem

theorem sboxOutputsC_append_ok {sbox : SboxType} {rk : List F}
    {lcs : List (LinComb F)} {sel : ℕ → Bool} {off : ℕ} :
    ∀ {idxs₁ idxs₂ : List ℕ} {cs : CS F} {r},
    sboxOutputsC sbox rk lcs sel off (idxs₁ ++ idxs₂) cs = Except.ok r →
    ∃ outs₁ cs₁ outs₂ cs₂,
      sboxOutputsC sbox rk lcs sel off idxs₁ cs = Except.ok (outs₁, cs₁) ∧
      sboxOutputsC sbox rk lcs sel off idxs₂ cs₁ = Except.ok (outs₂, cs₂) ∧
      r = (outs₁ ++ outs₂, cs₂) := by
  intro idxs₁
  induction idxs₁ with
  | nil =>
    intro idxs₂ cs r h
    obtain ⟨outs, cs₂⟩ := r
    exact ⟨[], cs, outs, cs₂, rfl, h, rfl⟩
  | cons j rest ih =>
    intro idxs₂ cs r h
    simp only [List.cons_append, sboxOutputsC] at h
    cases hk : rk[off + j]? with
    | none => rw [hk] at h; exact absurd h (by simp)
    | some k =>
      simp only [hk, List.append_eq] at h
      by_cases hsel : sel j = true
      · simp only [hsel, if_true] at h
        cases hs : SboxType.synthesize_sbox sbox cs (lcs.getD j []) k with
        | error e => rw [hs] at h; exact absurd h (by simp)
        | ok r1 =>
          obtain ⟨v, cs'⟩ := r1
          simp only [hs] at h
          cases ht : sboxOutputsC sbox rk lcs sel off (rest ++ idxs₂) cs' with
          | error e => rw [ht] at h; exact absurd h (by simp)
          | ok r2 =>
            rw [ht] at h
            simp only [Except.ok.injEq] at h
            obtain ⟨outs₁, cs₁, outs₂, cs₂, h1, h2, h3⟩ := ih ht
            refine ⟨LinComb.ofVar v :: outs₁, cs₁, outs₂, cs₂, ?_, h2, ?_⟩
            · simp only [sboxOutputsC, hk, hsel, if_true, hs, h1]
            · rw [← h, h3]
              simp
      · simp only [Bool.not_eq_true] at hsel
        simp only [hsel, Bool.false_eq_true, if_false] at h
        cases ht : sboxOutputsC sbox rk lcs sel off (rest ++ idxs₂) cs with
        | error e => rw [ht] at h; exact absurd h (by simp)
        | ok r2 =>
          rw [ht] at h
          simp only [Except.ok.injEq] at h
          obtain ⟨outs₁, cs₁, outs₂, cs₂, h1, h2, h3⟩ := ih ht
          refine ⟨(lcs.getD j [] ++ LinComb.const k) :: outs₁, cs₁, outs₂,
            cs₂, ?_, h2, ?_⟩
          · simp only [sboxOutputsC, hk, hsel, Bool.false_eq_true, if_false,
              h1]
          · rw [← h, h3]
            simp

theorem sboxOutputsC_nosel {sbox : SboxType} {rk : List F}
    {lcs : List (LinComb F)} {sel : ℕ → Bool} {off : ℕ} :
    ∀ (idxs : List ℕ) (cs : CS F),
    (∀ i ∈ idxs, sel i = false) → (∀ i ∈ idxs, off + i < rk.length) →
    sboxOutputsC sbox rk lcs sel off idxs cs =
      Except.ok (idxs.map
        (fun i => lcs.getD i [] ++ LinComb.const (rk.getD (off + i) 0)),
        cs) := by
  intro idxs
  induction idxs with
  | nil => intro cs _ _; rfl
  | cons j rest ih =>
    intro cs hsel hb
    have hj : off + j < rk.length := hb j (List.mem_cons_self j rest)
    have hrk : rk.getD (off + j) 0 = rk[off + j] := by
      rw [List.getD_eq_getElem?_getD, List.getElem?_eq_getElem hj]
      rfl
    simp only [sboxOutputsC, List.getElem?_eq_getElem hj,
      hsel j (List.mem_cons_self j rest), Bool.false_eq_true, if_false,
      ih cs (fun i hi => hsel i (List.mem_cons_of_mem j hi))
        (fun i hi => hb i (List.mem_cons_of_mem j hi)),
      List.map_cons, hrk]

/-! ### Offset threading and absence of key-index panics -/

theorem roundN_offset {w : ℕ} {M : List (List F)} {rk : List F}
    {sbox : SboxType} {full : Bool} {st : List F × ℕ} {r : List F × ℕ}
    (h : roundN w M rk sbox full st = some r) : r.2 = st.2 + w := by
  unfold roundN at h
  split at h
  · split at h
    · exact Option.noConfusion h
    · split at h
      · exact Option.noConfusion h
      · simp only [Option.some.injEq] at h
        rw [← h]
  · split at h
    · exact Option.noConfusion h
    · split at h
      · exact Option.noConfusion h
      · split at h
        · exact Option.noConfusion h
        · simp only [Option.some.injEq] at h
          rw [← h]

theorem roundC_offset {w : ℕ} {M : List (List F)} {rk : List F}
    {sbox : SboxType} {full : Bool} {st : List (LinComb F) × ℕ} {cs : CS F}
    {r : (List (LinComb F) × ℕ) × CS F}
    (h : roundC w M rk sbox full st cs = Except.ok r) : r.1.2 = st.2 + w := by
  unfold roundC at h
  split at h
  · exact Except.noConfusion h
  · split at h
    · exact Except.noConfusion h
    · simp only [Except.ok.injEq] at h
      rw [← h]

theorem dotRowC_isSome (row : List F) (outs : List (LinComb F)) (w : ℕ)
    (hrow : w ≤ row.length) :
    ∀ (js : List ℕ), (∀ j ∈ js, j < w) → ∀ acc : LinComb F,
    ∃ lc, dotRowC row outs js acc = some lc := by
  intro js
  induction js with
  | nil => intro _ acc; exact ⟨acc, rfl⟩
  | cons j rest ih =>
    intro hb acc
    have hj : j < row.length :=
      lt_of_lt_of_le (hb j (List.mem_cons_self j rest)) hrow
    obtain ⟨lc, hlc⟩ := ih (fun j' hj' => hb j' (List.mem_cons_of_mem j hj'))
      (acc ++ LinComb.scale row[j] (outs.getD j []))
    exact ⟨lc, by simp only [dotRowC, List.getElem?_eq_getElem hj]; exact hlc⟩

theorem linRowsC_isSome (M : List (List F)) (outs : List (LinComb F))
    (w : ℕ) (hM : w ≤ M.length) (hrows : ∀ row ∈ M, w ≤ row.length) :
    ∀ (is : List ℕ), (∀ i ∈ is, i < w) →
    ∃ res, linRowsC M outs w is = some res := by
  intro is
  induction is with
  | nil => intro _; exact ⟨[], rfl⟩
  | cons i rest ih =>
    intro hb
    have hi : i < M.length :=
      lt_of_lt_of_le (hb i (List.mem_cons_self i rest)) hM
    have hrow : w ≤ M[i].length := hrows M[i] (List.getElem_mem hi)
    obtain ⟨lc, hlc⟩ := dotRowC_isSome M[i] outs w hrow (List.range w)
      (fun j hj => List.mem_range.mp hj) []
    obtain ⟨tail, htail⟩ :=
      ih (fun i' hi' => hb i' (List.mem_cons_of_mem i hi'))
    exact ⟨lc :: tail,
      by simp only [linRowsC, List.getElem?_eq_getElem hi, hlc, htail]⟩

theorem sboxOutputsC_ne_oob {sbox : SboxType} {rk : List F}
    {lcs : List (LinComb F)} {sel : ℕ → Bool} {off : ℕ} :
    ∀ (idxs : List ℕ) (cs : CS F), (∀ i ∈ idxs, off + i < rk.length) →
    sboxOutputsC sbox rk lcs sel off idxs cs ≠
      Except.error CircErr.indexOOB := by
  intro idxs
  induction idxs with
  | nil => intro cs _ h; exact Except.noConfusion h
  | cons j rest ih =>
    intro cs hb h
    have hj := hb j (List.mem_cons_self j rest)
    simp only [sboxOutputsC, List.getElem?_eq_getElem hj] at h
    by_cases hsel : sel j = true
    · simp only [hsel, if_true] at h
      cases hs : SboxType.synthesize_sbox sbox cs (lcs.getD j [])
          rk[off + j] with
      | error e =>
        rw [hs] at h
        injection h with h
        subst h
        rcases synthesize_sbox_error hs with h1 | h1 | h1 <;>
          exact absurd h1 (by simp)
      | ok r1 =>
        obtain ⟨v, cs1⟩ := r1
        simp only [hs] at h
        cases ht : sboxOutputsC sbox rk lcs sel off rest cs1 with
        | error e =>
          rw [ht] at h
          injection h with h
          subst h
          exact ih cs1 (fun i hi => hb i (List.mem_cons_of_mem j hi)) ht
        | ok r2 => rw [ht] at h; exact Except.noConfusion h
    · simp only [Bool.not_eq_true] at hsel
      simp only [hsel, Bool.false_eq_true, if_false] at h
      cases ht : sboxOutputsC sbox rk lcs sel off rest cs with
      | error e =>
        rw [ht] at h
        injection h with h
        subst h
        exact ih cs (fun i hi => hb i (List.mem_cons_of_mem j hi)) ht
      | ok r2 => rw [ht] at h; exact Except.noConfusion h

theorem roundC_ne_oob {w : ℕ} {M : List (List F)} {rk : List F}
    {sbox : SboxType} (hM : M.length = w)
    (hrows : ∀ row ∈ M, row.length = w) {full : Bool}
    {st : List (LinComb F) × ℕ} {cs : CS F} (hb : st.2 + w ≤ rk.length) :
    roundC w M rk sbox full st cs ≠ Except.error CircErr.indexOOB := by
  intro h
  unfold roundC at h
  cases hlay : sboxOutputsC sbox rk st.1
      (if full then fun _ => true else fun i => i == w - 1) st.2
      (List.range w) cs with
  | error e =>
    rw [hlay] at h
    injection h with h
    subst h
    exact sboxOutputsC_ne_oob (List.range w) cs
      (fun i hi => by have := List.mem_range.mp hi; omega) hlay
  | ok r0 =>
    obtain ⟨outs, cs'⟩ := r0
    simp only [hlay] at h
    obtain ⟨res, hres⟩ := linRowsC_isSome M outs w (le_of_eq hM.symm)
      (fun row hr => le_of_eq (hrows row hr).symm) (List.range w)
      (fun i hi => List.mem_range.mp hi)
    rw [show apply_linear_layer w outs M = some res from hres] at h
    exact Except.noConfusion h

theorem permAuxC_spec {w : ℕ} {M : List (List F)} {rk : List F}
    {sbox : SboxType} (hM : M.length = w)
    (hrows : ∀ row ∈ M, row.length = w) :
    ∀ (phasesL : List Bool) (st : List (LinComb F) × ℕ) (cs : CS F),
    st.2 + phasesL.length * w ≤ rk.length →
    (permAuxC w M rk sbox phasesL st cs ≠ Except.error CircErr.indexOOB) ∧
    (∀ r, permAuxC w M rk sbox phasesL st cs = Except.ok r →
      r.1.2 = st.2 + phasesL.length * w) := by
  intro phasesL
  induction phasesL with
  | nil =>
    intro st cs _
    constructor
    · exact fun h => Except.noConfusion h
    · intro r h
      simp only [permAuxC, Except.ok.injEq] at h
      rw [← h]
      simp
  | cons full rest ih =>
    intro st cs hb
    have hb1 : st.2 + w ≤ rk.length := by
      simp only [List.length_cons] at hb
      nlinarith
    constructor
    · intro h
      simp only [permAuxC] at h
      cases hrd : roundC w M rk sbox full st cs with
      | error e =>
        rw [hrd] at h
        injection h with h
        subst h
        exact roundC_ne_oob hM hrows hb1 hrd
      | ok r1 =>
        simp only [hrd] at h
        have hoff := roundC_offset hrd
        have hb2 : r1.1.2 + rest.length * w ≤ rk.length := by
          rw [hoff]
          simp only [List.length_cons] at hb
          nlinarith
        exact (ih r1.1 r1.2 hb2).1 h
    · intro r h
      simp only [permAuxC] at h
      cases hrd : roundC w M rk sbox full st cs with
      | error e => rw [hrd] at h; exact Except.noConfusion h
      | ok r1 =>
        simp only [hrd] at h
        have hoff := roundC_offset hrd
        have hb2 : r1.1.2 + rest.length * w ≤ rk.length := by
          rw [hoff]
          simp only [List.length_cons] at hb
          nlinarith
        have := (ih r1.1 r1.2 hb2).2 r h
        rw [this, hoff]
        simp only [List.length_cons]
        ring

theorem permAuxC_offset {w : ℕ} {M : List (List F)} {rk : List F}
    {sbox : SboxType} :
    ∀ {phasesL : List Bool} {st : List (LinComb F) × ℕ} {cs : CS F} {r},
    permAuxC w M rk sbox phasesL st cs = Except.ok r →
    r.1.2 = st.2 + phasesL.length * w := by
  intro phasesL
  induction phasesL with
  | nil =>
    intro st cs r h
    simp only [permAuxC, Except.ok.injEq] at h
    rw [← h]
    simp
  | cons full rest ih =>
    intro st cs r h
    simp only [permAuxC] at h
    cases hrd : roundC w M rk sbox full st cs with
    | error e => rw [hrd] at h; exact Except.noConfusion h
    | ok r1 =>
      simp only [hrd] at h
      rw [ih h, roundC_offset hrd]
      simp only [List.length_cons]
      ring

/-! ### Topology transport: a verifier replays a prover's gate allocations -/

theorem topo_parts {cs₁ cs₂ : CS F} (h : cs₁.topo = cs₂.topo) :
    cs₁.aL.length = cs₂.aL.length ∧ cs₁.pending = cs₂.pending ∧
      cs₁.constraints = cs₂.constraints := by
  unfold CS.topo at h
  refine ⟨congrArg Prod.fst h, ?_, ?_⟩
  · exact congrArg Prod.fst (congrArg Prod.snd h)
  · exact congrArg Prod.snd (congrArg Prod.snd h)

theorem topo_of_parts {cs₁ cs₂ : CS F}
    (h1 : cs₁.aL.length = cs₂.aL.length) (h2 : cs₁.pending = cs₂.pending)
    (h3 : cs₁.constraints = cs₂.constraints) : cs₁.topo = cs₂.topo := by
  unfold CS.topo
  rw [h1, h2, h3]

theorem multiply_mode {cs₁ cs₂ : CS F} (ht : cs₁.topo = cs₂.topo)
    (l r : LinComb F) :
    (cs₁.multiply l r).1 = (cs₂.multiply l r).1 ∧
    ((cs₁.multiply l r).2).topo = ((cs₂.multiply l r).2).topo := by
  obtain ⟨hlen, hpend, hcons⟩ := topo_parts ht
  constructor
  · show (Var.mulL cs₁.aL.length, Var.mulR cs₁.aL.length,
      Var.mulO cs₁.aL.length) = _
    rw [hlen]
    rfl
  · refine topo_of_parts ?_ ?_ ?_
    · show (cs₁.aL ++ _).length = (cs₂.aL ++ _).length
      simp [hlen]
    · exact hpend
    · show cs₁.constraints ++ _ = cs₂.constraints ++ _
      rw [hcons, hlen]

theorem allocate_mode {cs₁ cs₂ : CS F} (ht : cs₁.topo = cs₂.topo)
    (hp₂ : cs₂.prover = false) {x₁ : Option F} (x₂ : Option F) {v : Var}
    {cs₁' : CS F} (h : cs₁.allocate x₁ = Except.ok (v, cs₁')) :
    ∃ cs₂', cs₂.allocate x₂ = Except.ok (v, cs₂') ∧
      cs₁'.topo = cs₂'.topo ∧ cs₂'.prover = false := by
  obtain ⟨hlen, hpend, hcons⟩ := topo_parts ht
  have hpe₂ : cs₂.pending = cs₁.pending := hpend.symm
  unfold CS.allocate at h ⊢
  have hg₂ : ¬ ((cs₂.prover && x₂.isNone) = true) := by
    rw [hp₂]
    simp
  rw [if_neg hg₂]
  by_cases hg : (cs₁.prover && x₁.isNone) = true
  · rw [if_pos hg] at h
    exact Except.noConfusion h
  · rw [if_neg hg] at h
    cases hpe : cs₁.pending with
    | none =>
      simp only [hpe] at h
      simp only [hpe₂, hpe]
      simp only [Except.ok.injEq, Prod.mk.injEq] at h
      obtain ⟨hv, hcs⟩ := h
      subst hv
      subst hcs
      rw [hlen]
      refine ⟨_, rfl, ?_, hp₂⟩
      refine topo_of_parts ?_ ?_ ?_
      · show (cs₁.aL ++ _).length = (cs₂.aL ++ _).length
        simp [hlen]
      · rfl
      · exact hcons
    | some i =>
      simp only [hpe] at h
      simp only [hpe₂, hpe]
      simp only [Except.ok.injEq, Prod.mk.injEq] at h
      obtain ⟨hv, hcs⟩ := h
      subst hv
      subst hcs
      refine ⟨_, rfl, ?_, hp₂⟩
      refine topo_of_parts ?_ ?_ ?_
      · exact hlen
      · rfl
      · exact hcons

theorem allocate_single_mode {cs₁ cs₂ : CS F} (ht : cs₁.topo = cs₂.topo)
    (hp₂ : cs₂.prover = false) {x₁ : Option F} (x₂ : Option F)
    {v : Var} {vo : Option Var} {cs₁' : CS F}
    (h : cs₁.allocate_single x₁ = Except.ok ((v, vo), cs₁')) :
    ∃ cs₂', cs₂.allocate_single x₂ = Except.ok ((v, vo), cs₂') ∧
      cs₁'.topo = cs₂'.topo ∧ cs₂'.prover = false := by
  unfold CS.allocate_single at h ⊢
  cases ha : cs₁.allocate x₁ with
  | error e => rw [ha] at h; exact Except.noConfusion h
  | ok r =>
    obtain ⟨v', cs''⟩ := r
    simp only [ha] at h
    obtain ⟨cs₂'', ha₂, ht', hp'⟩ := allocate_mode ht hp₂ x₂ ha
    simp only [ha₂]
    cases v' with
    | one => exact Except.noConfusion h
    | comm i => exact Except.noConfusion h
    | mulL i =>
      simp only [Except.ok.injEq, Prod.mk.injEq] at h
      obtain ⟨⟨hv, hvo⟩, hcs⟩ := h
      subst hv
      subst hvo
      subst hcs
      exact ⟨cs₂'', rfl, ht', hp'⟩
    | mulR i =>
      simp only [Except.ok.injEq, Prod.mk.injEq] at h
      obtain ⟨⟨hv, hvo⟩, hcs⟩ := h
      subst hv
      subst hvo
      subst hcs
      exact ⟨cs₂'', rfl, ht', hp'⟩
    | mulO i => exact Except.noConfusion h

theorem is_nonzero_gadget_mode {cs₁ cs₂ : CS F} (ht : cs₁.topo = cs₂.topo)
    (hp₂ : cs₂.prover = false) (vl vr : Var) (a1 a2 b1 b2 : Option F) :
    ∃ c₁ c₂, is_nonzero_gadget cs₁ ⟨vl, a1⟩ ⟨vr, a2⟩ = Except.ok ((), c₁) ∧
      is_nonzero_gadget cs₂ ⟨vl, b1⟩ ⟨vr, b2⟩ = Except.ok ((), c₂) ∧
      c₁.topo = c₂.topo ∧ c₂.prover = false := by
  obtain ⟨g1, g2⟩ :=
    multiply_mode ht (LinComb.ofVar vl) (LinComb.ofVar vr)
  refine ⟨_, _, rfl, rfl, ?_, hp₂⟩
  obtain ⟨hlen', hpend', hcons'⟩ := topo_parts g2
  refine topo_of_parts hlen' hpend' ?_
  show _ ++ _ = _ ++ _
  rw [hcons', g1]

theorem synthesize_cube_mode {cs₁ cs₂ : CS F} (ht : cs₁.topo = cs₂.topo)
    (hp₂ : cs₂.prover = false) (lc : LinComb F) (k : F) {v : Var}
    {cs₁' : CS F}
    (h : synthesize_cube_sbox cs₁ lc k = Except.ok (v, cs₁')) :
    ∃ cs₂', synthesize_cube_sbox cs₂ lc k = Except.ok (v, cs₂') ∧
      cs₁'.topo = cs₂'.topo ∧ cs₂'.prover = false := by
  simp only [synthesize_cube_sbox] at h ⊢
  obtain ⟨g1, g2⟩ := multiply_mode ht (lc ++ LinComb.const k)
    (lc ++ LinComb.const k)
  rw [← g1]
  obtain ⟨g1', g2'⟩ := multiply_mode g2
    (LinComb.ofVar (cs₁.multiply (lc ++ LinComb.const k)
      (lc ++ LinComb.const k)).1.2.2)
    (LinComb.ofVar (cs₁.multiply (lc ++ LinComb.const k)
      (lc ++ LinComb.const k)).1.1)
  rw [← g1']
  simp only [Except.ok.injEq, Prod.mk.injEq] at h
  obtain ⟨hv, hcs⟩ := h
  subst hv
  subst hcs
  exact ⟨_, rfl, g2', hp₂⟩

theorem synthesize_inverse_mode {cs₁ cs₂ : CS F} (ht : cs₁.topo = cs₂.topo)
    (hp₂ : cs₂.prover = false) (lc : LinComb F) (k : F) {v : Var}
    {cs₁' : CS F}
    (h : synthesize_inverse_sbox cs₁ lc k = Except.ok (v, cs₁')) :
    ∃ cs₂', synthesize_inverse_sbox cs₂ lc k = Except.ok (v, cs₂') ∧
      cs₁'.topo = cs₂'.topo ∧ cs₂'.prover = false := by
  simp only [synthesize_inverse_sbox] at h ⊢
  have hv₂ : cs₂.evaluate_lc (lc ++ LinComb.const k) = none := by
    simp [CS.evaluate_lc, hp₂]
  simp only [hv₂, Option.map_none']
  cases ha1 : cs₁.allocate_single
      (cs₁.evaluate_lc (lc ++ LinComb.const k)) with
  | error e => rw [ha1] at h; exact Except.noConfusion h
  | ok r1 =>
    obtain ⟨⟨var_l, vo1⟩, cs1a⟩ := r1
    simp only [ha1] at h
    obtain ⟨cs2a, ha2, ht1, hpa⟩ := allocate_single_mode ht hp₂ none ha1
    simp only [ha2]
    cases ha1b : cs1a.allocate_single
        ((cs₁.evaluate_lc (lc ++ LinComb.const k)).map fun l => l⁻¹) with
    | error e => rw [ha1b] at h; exact Except.noConfusion h
    | ok r2 =>
      obtain ⟨⟨var_r, var_o⟩, cs1b⟩ := r2
      simp only [ha1b] at h
      obtain ⟨cs2b, ha2b, ht2, hpb⟩ := allocate_single_mode ht1 hpa none ha1b
      simp only [ha2b]
      obtain ⟨c₁, c₂, hg1, hg2, ht3, hpc⟩ := is_nonzero_gadget_mode ht2 hpb
        var_l var_r (cs₁.evaluate_lc (lc ++ LinComb.const k))
        ((cs₁.evaluate_lc (lc ++ LinComb.const k)).map fun l => l⁻¹)
        none none
      simp only [hg1] at h
      simp only [hg2]
      cases var_o with
      | none => exact Except.noConfusion h
      | some vo =>
        simp only [Except.ok.injEq, Prod.mk.injEq] at h
        obtain ⟨hv, hcs⟩ := h
        subst hv
        subst hcs
        refine ⟨_, rfl, ?_, hpc⟩
        obtain ⟨hlen3, hpend3, hcons3⟩ := topo_parts ht3
        unfold constrain_lc_with_scalar CS.constrain
        exact topo_of_parts hlen3 hpend3 (by rw [hcons3])

theorem synthesize_sbox_mode (sb : SboxType) {cs₁ cs₂ : CS F}
    (ht : cs₁.topo = cs₂.topo) (hp₂ : cs₂.prover = false)
    (lc : LinComb F) (k : F) {v : Var} {cs₁' : CS F}
    (h : SboxType.synthesize_sbox sb cs₁ lc k = Except.ok (v, cs₁')) :
    ∃ cs₂', SboxType.synthesize_sbox sb cs₂ lc k = Except.ok (v, cs₂') ∧
      cs₁'.topo = cs₂'.topo ∧ cs₂'.prover = false := by
  cases sb with
  | Cube => exact synthesize_cube_mode ht hp₂ lc k h
  | Inverse => exact synthesize_inverse_mode ht hp₂ lc k h

theorem sboxOutputs_mode (sbox : SboxType) (rk : List F)
    (lcs : List (LinComb F)) (sel : ℕ → Bool) (off : ℕ) :
    ∀ (idxs : List ℕ) {cs₁ cs₂ : CS F} {outs : List (LinComb F)}
      {cs₁' : CS F},
    cs₁.topo = cs₂.topo → cs₂.prover = false →
    sboxOutputsC sbox rk lcs sel off idxs cs₁ = Except.ok (outs, cs₁') →
    ∃ cs₂', sboxOutputsC sbox rk lcs sel off idxs cs₂ =
        Except.ok (outs, cs₂') ∧ cs₁'.topo = cs₂'.topo ∧
        cs₂'.prover = false := by
  intro idxs
  induction idxs with
  | nil =>
    intro cs₁ cs₂ outs cs₁' ht hp₂ h
    simp only [sboxOutputsC, Except.ok.injEq, Prod.mk.injEq] at h
    obtain ⟨houts, hcs⟩ := h
    exact ⟨cs₂, by rw [← houts]; rfl, by rw [← hcs]; exact ht, hp₂⟩
  | cons j rest ih =>
    intro cs₁ cs₂ outs cs₁' ht hp₂ h
    simp only [sboxOutputsC] at h ⊢
    cases hk : rk[off + j]? with
    | none => rw [hk] at h; exact Except.noConfusion h
    | some k =>
      simp only [hk] at h ⊢
      by_cases hsel : sel j = true
      · rw [if_pos hsel] at h
        rw [if_pos hsel]
        cases hs : SboxType.synthesize_sbox sbox cs₁ (lcs.getD j []) k with
        | error e => rw [hs] at h; exact Except.noConfusion h
        | ok r1 =>
          obtain ⟨v, cs1'⟩ := r1
          simp only [hs] at h
          obtain ⟨cs2', hs₂, ht1, hp1⟩ :=
            synthesize_sbox_mode sbox ht hp₂ _ k hs
          simp only [hs₂]
          cases hrec : sboxOutputsC sbox rk lcs sel off rest cs1' with
          | error e => rw [hrec] at h; exact Except.noConfusion h
          | ok r2 =>
            obtain ⟨tail, csEnd⟩ := r2
            simp only [hrec] at h
            obtain ⟨csEnd₂, hrec₂, ht2, hp2'⟩ := ih ht1 hp1 hrec
            simp only [hrec₂]
            simp only [Except.ok.injEq, Prod.mk.injEq] at h
            obtain ⟨houts, hcs⟩ := h
            exact ⟨csEnd₂, by rw [houts], by rw [← hcs]; exact ht2, hp2'⟩
      · rw [if_neg hsel] at h
        rw [if_neg hsel]
        cases hrec : sboxOutputsC sbox rk lcs sel off rest cs₁ with
        | error e => rw [hrec] at h; exact Except.noConfusion h
        | ok r2 =>
          obtain ⟨tail, csEnd⟩ := r2
          simp only [hrec] at h
          obtain ⟨csEnd₂, hrec₂, ht2, hp2'⟩ := ih ht hp₂ hrec
          simp only [hrec₂]
          simp only [Except.ok.injEq, Prod.mk.injEq] at h
          obtain ⟨houts, hcs⟩ := h
          exact ⟨csEnd₂, by rw [houts], by rw [← hcs]; exact ht2, hp2'⟩

theorem roundC_mode (w : ℕ) (M : List (List F)) (rk : List F)
    (sbox : SboxType) (full : Bool) {st : List (LinComb F) × ℕ}
    {cs₁ cs₂ : CS F} {r₁ : (List (LinComb F) × ℕ) × CS F}
    (ht : cs₁.topo = cs₂.topo) (hp₂ : cs₂.prover = false)
    (h : roundC w M rk sbox full st cs₁ = Except.ok r₁) :
    ∃ cs₂', roundC w M rk sbox full st cs₂ = Except.ok (r₁.1, cs₂') ∧
      r₁.2.topo = cs₂'.topo ∧ cs₂'.prover = false := by
  unfold roundC at h ⊢
  cases hlay : sboxOutputsC sbox rk st.1
      (if full then fun _ => true else fun i => i == w - 1) st.2
      (List.range w) cs₁ with
  | error e => rw [hlay] at h; exact Except.noConfusion h
  | ok r0 =>
    obtain ⟨outs, cs1'⟩ := r0
    simp only [hlay] at h
    obtain ⟨cs2', hlay₂, ht1, hp1⟩ := sboxOutputs_mode sbox rk st.1 _ st.2
      (List.range w) ht hp₂ hlay
    simp only [hlay₂]
    cases hlin : apply_linear_layer w outs M with
    | none => rw [hlin] at h; exact Except.noConfusion h
    | some next =>
      rw [hlin] at h
      simp only [Except.ok.injEq] at h
      exact ⟨cs2', by rw [← h], by rw [← h]; exact ht1, hp1⟩

theorem permAuxC_mode (w : ℕ) (M : List (List F)) (rk : List F)
    (sbox : SboxType) :
    ∀ (phasesL : List Bool) {st : List (LinComb F) × ℕ} {cs₁ cs₂ : CS F}
      {r₁ : (List (LinComb F) × ℕ) × CS F},
    cs₁.topo = cs₂.topo → cs₂.prover = false →
    permAuxC w M rk sbox phasesL st cs₁ = Except.ok r₁ →
    ∃ cs₂', permAuxC w M rk sbox phasesL st cs₂ = Except.ok (r₁.1, cs₂') ∧
      r₁.2.topo = cs₂'.topo ∧ cs₂'.prover = false := by
  intro phasesL
  induction phasesL with
  | nil =>
    intro st cs₁ cs₂ r₁ ht hp₂ h
    simp only [permAuxC, Except.ok.injEq] at h ⊢
    exact ⟨cs₂, by rw [← h], by rw [← h]; exact ht, hp₂⟩
  | cons full rest ih =>
    intro st cs₁ cs₂ r₁ ht hp₂ h
    simp only [permAuxC] at h ⊢
    cases hrd : roundC w M rk sbox full st cs₁ with
    | error e => rw [hrd] at h; exact Except.noConfusion h
    | ok r0 =>
      obtain ⟨st0, cs1'⟩ := r0
      simp only [hrd] at h
      obtain ⟨cs2', hrd₂, ht1, hp1⟩ := roundC_mode w M rk sbox full ht hp₂ hrd
      simp only [hrd₂]
      exact ih ht1 hp1 h
end Lemmas

/-! ### Claim theorems -/

section Claims

variable {F : Type} [Field F]

/-- C1: For every parameter set (width, round counts, round keys, mixing
matrix), every S-box variant, and every input state of length width on which
the native evaluation is defined, evaluating each of the width linear
combinations returned by the circuit permutation engine
(`Poseidon_permutation_constraints`) under a full witness (a prover whose
constraint system assigns each input variable its state value) yields exactly
the corresponding element of the native permutation's output
(`Poseidon_permutation`) on the same input, round keys, and matrix. -/
theorem c1_circuit_refines_native (params : PoseidonParams F)
    (sbox : SboxType) (cs : CS F) (input : List (AllocatedScalar F))
    (xs out : List F)
    (hp : cs.prover = true) (hwf : cs.WF)
    (hlen : input.length = params.width) (hxs : xs.length = params.width)
    (hvals : ∀ i, i < params.width →
      cs.varVal ((input.getD i ⟨Var.one, none⟩).var) = some (xs.getD i 0))
    (hnat : Poseidon_permutation xs params sbox = some out) :
    ∃ lcs cs', Poseidon_permutation_constraints cs input params sbox =
        Except.ok (lcs, cs') ∧
      lcs.length = params.width ∧ out.length = params.width ∧
      ∀ i, i < params.width →
        cs'.evalLC (lcs.getD i []) = some (out.getD i 0) := by
  unfold Poseidon_permutation at hnat
  rw [if_pos hxs] at hnat
  cases hperm : permAuxN params.width params.MDS_matrix params.round_keys
      sbox params.phases (xs, 0) with
  | none => rw [hperm] at hnat; exact absurd hnat (by simp)
  | some stOut =>
    obtain ⟨sOut, offOut⟩ := stOut
    rw [hperm] at hnat
    simp only [Option.map_some', Option.some.injEq] at hnat
    subst hnat
    have hvals0 : ∀ i, i < params.width →
        cs.evalLC ((input.map (fun a => LinComb.ofVar a.var)).getD i []) =
          some (xs.getD i 0) := by
      intro i hi
      have hilt : i < input.length := by rw [hlen]; exact hi
      have hm : (input.map (fun a => LinComb.ofVar a.var)).getD i [] =
          (LinComb.ofVar ((input.getD i ⟨Var.one, none⟩).var) : LinComb F) := by
        rw [List.getD_eq_getElem?_getD, List.getElem?_map,
          List.getElem?_eq_getElem hilt, List.getD_eq_getElem?_getD,
          List.getElem?_eq_getElem hilt]
        rfl
      rw [hm]
      exact evalLC_ofVar (hvals i hi)
    obtain ⟨lcs', cs', heq, _, _, _, hlen', hslen', hvals'⟩ :=
      permAux_lockstep params.width params.MDS_matrix params.round_keys sbox
        params.phases hp hwf (by simp [hlen]) hxs hvals0 hperm
    refine ⟨lcs', cs', ?_, hlen', hslen', hvals'⟩
    unfold Poseidon_permutation_constraints
    rw [if_pos hlen, heq]

/-- C2: for every parameter set and S-box variant, the constraint topology
emitted by `Poseidon_permutation_constraints` does not depend on whether
concrete witness values are present: if a prover-role run (all assignments
known) succeeds, then a verifier-role run (no assignments known) started from
any constraint system with the same topology succeeds as well, returns the
identical output combinations, and ends with the identical topology — the
same number of gate allocations, the same pending slot, and the same emitted
constraints. -/
theorem c2_topology_independent (params : PoseidonParams F)
    (sbox : SboxType) (cs_p cs_v : CS F)
    (input : List (AllocatedScalar F)) (lcs : List (LinComb F))
    (cs_p' : CS F)
    (_hp : cs_p.prover = true) (hv : cs_v.prover = false)
    (ht : cs_p.topo = cs_v.topo)
    (h : Poseidon_permutation_constraints cs_p input params sbox =
      Except.ok (lcs, cs_p')) :
    ∃ cs_v', Poseidon_permutation_constraints cs_v input params sbox =
        Except.ok (lcs, cs_v') ∧ cs_p'.topo = cs_v'.topo := by
  unfold Poseidon_permutation_constraints at h ⊢
  by_cases hlen : input.length = params.width
  · rw [if_pos hlen] at h ⊢
    cases hperm : permAuxC params.width params.MDS_matrix params.round_keys
        sbox params.phases (input.map fun a => LinComb.ofVar a.var, 0)
        cs_p with
    | error e => rw [hperm] at h; exact Except.noConfusion h
    | ok r0 =>
      obtain ⟨⟨lcs0, off0⟩, csP⟩ := r0
      simp only [hperm] at h
      obtain ⟨csV, hperm₂, ht1, hp1⟩ := permAuxC_mode params.width
        params.MDS_matrix params.round_keys sbox params.phases ht hv hperm
      have hperm₂' : permAuxC params.width params.MDS_matrix params.round_keys
          sbox params.phases (input.map fun a => LinComb.ofVar a.var, 0)
          cs_v = Except.ok ((lcs0, off0), csV) := hperm₂
      simp only [hperm₂']
      simp only [Except.ok.injEq, Prod.mk.injEq] at h
      obtain ⟨hl, hc⟩ := h
      subst hl
      subst hc
      exact ⟨csV, rfl, ht1⟩
  · rw [if_neg hlen] at h
    exact Except.noConfusion h

/-- C4 (amended): the Inverse S-box native evaluation is total — at the
additive identity it returns the additive identity (curve25519-dalek's
`invert` is exponentiation by the group order minus two, not a failing
operation), and for every non-zero field element `x` it returns the
multiplicative inverse, `evaluate(x) * x = 1`. -/
theorem c4_inverse_sbox :
    SboxType.Inverse.apply_sbox (0 : F) = 0 ∧
    ∀ x : F, x ≠ 0 → SboxType.Inverse.apply_sbox x * x = 1 := by
  constructor
  · show (0 : F)⁻¹ = 0
    exact inv_zero
  · intro x hx
    show x⁻¹ * x = 1
    exact inv_mul_cancel₀ hx

/-- C7: the Cube S-box native evaluation is `x * x * x` for every field
element, including `0 ↦ 0` without failing; its circuit emission adds the
round key to the input combination, allocates exactly two multiplication
gates — one whose output carries the square of the shifted input, one whose
output carries the cube — and returns the cube output wire. -/
theorem c7_cube_sbox :
    (∀ x : F, SboxType.Cube.apply_sbox x = x * x * x) ∧
    SboxType.Cube.apply_sbox (0 : F) = 0 ∧
    (∀ (cs : CS F) (lc : LinComb F) (k : F), ∃ cs',
      synthesize_cube_sbox cs lc k =
        Except.ok (Var.mulO (cs.aL.length + 1), cs') ∧
      cs'.aL.length = cs.aL.length + 2) ∧
    (∀ (cs : CS F) (lc : LinComb F) (k x : F), cs.prover = true → cs.WF →
      cs.evalLC lc = some x → ∃ cs',
      synthesize_cube_sbox cs lc k =
        Except.ok (Var.mulO (cs.aL.length + 1), cs') ∧
      cs'.varVal (Var.mulO cs.aL.length) = some ((x + k) * (x + k)) ∧
      cs'.varVal (Var.mulO (cs.aL.length + 1)) =
        some ((x + k) * (x + k) * (x + k))) := by
  refine ⟨fun x => rfl, by simp [SboxType.apply_sbox], ?_, ?_⟩
  · intro cs lc k
    set ipc : LinComb F := lc ++ LinComb.const k with hipc
    set cs₁ := (cs.multiply ipc ipc).2 with hcs₁
    have hlen1 : cs₁.aL.length = cs.aL.length + 1 :=
      (multiply_shape cs ipc ipc).2.2.2.1
    set cs₂ := (cs₁.multiply (LinComb.ofVar (Var.mulO cs.aL.length))
      (LinComb.ofVar (Var.mulL cs.aL.length))).2 with hcs₂
    refine ⟨cs₂, ?_, ?_⟩
    · show Except.ok (Var.mulO cs₁.aL.length, cs₂) = _
      rw [hlen1]
    · rw [(multiply_shape cs₁ _ _).2.2.2.1, hlen1]
  · intro cs lc k x hp hwf h
    have hev : cs.evalLC (lc ++ LinComb.const k) = some (x + k) :=
      evalLC_add_const k h
    set ipc : LinComb F := lc ++ LinComb.const k with hipc
    set cs₁ := (cs.multiply ipc ipc).2 with hcs₁
    obtain ⟨hv1L, hv1R, hv1O⟩ := multiply_varVal hp hwf hev hev
    have hwf1 : cs₁.WF := multiply_wf hwf ipc ipc
    have hp1 : cs₁.prover = true := by
      rw [(multiply_shape cs ipc ipc).2.1, hp]
    have hlen1 : cs₁.aL.length = cs.aL.length + 1 :=
      (multiply_shape cs ipc ipc).2.2.2.1
    set cs₂ := (cs₁.multiply (LinComb.ofVar (Var.mulO cs.aL.length))
      (LinComb.ofVar (Var.mulL cs.aL.length))).2 with hcs₂
    obtain ⟨_, _, hv2O⟩ := multiply_varVal hp1 hwf1 (evalLC_ofVar hv1O)
      (evalLC_ofVar hv1L)
    refine ⟨cs₂, ?_, ?_, ?_⟩
    · show Except.ok (Var.mulO cs₁.aL.length, cs₂) = _
      rw [hlen1]
    · exact (multiply_extends cs₁ _ _).2.2 _ _ hv1O
    · rw [← hlen1]
      exact hv2O

/-- C8: parameter construction fails fatally — modelled as `none`, the panic
of the calling context — whenever the static round-key table is shorter than
`total_rounds * width` or the static mixing-matrix table is not
`width × width`; and whenever it does return a parameter object, that object
is fully populated (correct width, a complete key schedule, a full
`width × width` matrix). -/
theorem c8_param_construction (RC : List F) (MDS : List (List F))
    (width fb fe mid : ℕ) :
    (RC.length < (fb + mid + fe) * width →
      PoseidonParams.new RC MDS width fb fe mid = none) ∧
    ((MDS.length ≠ width ∨ ∃ row ∈ MDS, row.length ≠ width) →
      PoseidonParams.new RC MDS width fb fe mid = none) ∧
    (∀ ps, PoseidonParams.new RC MDS width fb fe mid = some ps →
      ps.width = width ∧ ps.round_keys.length = (fb + mid + fe) * width ∧
      ps.MDS_matrix.length = width ∧
      ∀ row ∈ ps.MDS_matrix, row.length = width) := by
  refine ⟨?_, ?_, ?_⟩
  · intro hshort
    simp only [PoseidonParams.new, gen_round_keys, if_pos hshort]
  · intro hbad
    have hmds : gen_MDS_matrix MDS width = none := by
      simp only [gen_MDS_matrix]
      rcases hbad with hlen | ⟨row, hrow, hne⟩
      · rw [if_pos hlen]
      · by_cases hlen : MDS.length ≠ width
        · rw [if_pos hlen]
        · rw [if_neg hlen]
          cases hall : MDS.all (fun r => r.length == width) with
          | false => simp
          | true =>
            have := List.all_eq_true.mp hall row hrow
            exact absurd (by simpa using this) hne
    simp only [PoseidonParams.new]
    cases hg : gen_round_keys RC width (fb + mid + fe) with
    | none => rfl
    | some rk => simp only [hmds]
  · intro ps hps
    simp only [PoseidonParams.new] at hps
    cases hg : gen_round_keys RC width (fb + mid + fe) with
    | none => rw [hg] at hps; exact absurd hps (by simp)
    | some rk =>
      rw [hg] at hps
      cases hm : gen_MDS_matrix MDS width with
      | none => rw [hm] at hps; exact absurd hps (by simp)
      | some m =>
        rw [hm] at hps
        simp only [Option.some.injEq] at hps
        subst hps
        have hrk : rk.length = (fb + mid + fe) * width := by
          simp only [gen_round_keys] at hg
          by_cases hshort : RC.length < (fb + mid + fe) * width
          · rw [if_pos hshort] at hg
            exact absurd hg (by simp)
          · rw [if_neg hshort] at hg
            simp only [Option.some.injEq] at hg
            subst hg
            rw [List.length_take]
            omega
        have hmm : MDS.length = width ∧ m = MDS ∧
            ∀ row ∈ MDS, row.length = width := by
          simp only [gen_MDS_matrix] at hm
          by_cases hlen : MDS.length ≠ width
          · rw [if_pos hlen] at hm
            exact absurd hm (by simp)
          · rw [if_neg hlen] at hm
            cases hall : MDS.all (fun r => r.length == width) with
            | false =>
              rw [hall] at hm
              exact absurd hm (by simp)
            | true =>
              rw [hall] at hm
              simp only [if_true, Option.some.injEq] at hm
              refine ⟨not_not.mp hlen, hm.symm, fun row hr => ?_⟩
              simpa using List.all_eq_true.mp hall row hr
        obtain ⟨hMlen, hmeq, hrows⟩ := hmm
        subst hmeq
        exact ⟨rfl, hrk, hMlen, hrows⟩

/-- C9 (amended): the "inverse not implemented" arm of `synthesize_sbox` is
dead code — with the two variants `Cube` and `Inverse` the dispatch always
delegates to the corresponding synthesizer, and for no S-box selection does
`synthesize_sbox` return a gadget error described "inverse not implemented". -/
theorem c9_sbox_dispatch (sb : SboxType) (cs : CS F) (lc : LinComb F)
    (k : F) :
    (SboxType.synthesize_sbox sb cs lc k = synthesize_cube_sbox cs lc k ∨
     SboxType.synthesize_sbox sb cs lc k = synthesize_inverse_sbox cs lc k) ∧
    SboxType.synthesize_sbox sb cs lc k ≠ Except.error
      (CircErr.r1cs (R1CSError.GadgetError "inverse not implemented")) := by
  constructor
  · cases sb
    · exact Or.inl rfl
    · exact Or.inr rfl
  · intro hcon
    rcases synthesize_sbox_error hcon with h | h | h <;> simp at h

/-- C10: the native 2:1 hash always builds a fixed six-element input state, so
for every parameter set with `width ≠ 6` (including widths 4 and 5) it hits
the permutation's input-length assertion and panics (`none`) instead of
returning a hash value; it is total under the precondition `width = 6` (with
well-formed tables). -/
theorem c10_hash2_total_only_at_width_six :
    (∀ (xl xr : F) (params : PoseidonParams F) (sbox : SboxType),
      params.width ≠ 6 → Poseidon_hash_2 xl xr params sbox = none) ∧
    (∀ (xl xr : F) (params : PoseidonParams F) (sbox : SboxType),
      params.WellFormed → params.width = 6 →
      (Poseidon_hash_2 xl xr params sbox).isSome = true) := by
  constructor
  · intro xl xr params sbox hw
    have hne : ¬(([0, xl, xr, 0, 0, 0] : List F).length = params.width) := by
      simp only [List.length_cons, List.length_nil]
      exact fun hcon => hw (by omega)
    simp only [Poseidon_hash_2, Poseidon_permutation, if_neg hne]
  · intro xl xr params sbox hwf h6
    obtain ⟨out, hperm, hlen⟩ := Poseidon_permutation_defined params sbox
      [0, xl, xr, 0, 0, 0] hwf (by simp [h6])
    simp only [Poseidon_hash_2, hperm]
    have h1 : 1 < out.length := by
      rw [hlen, h6]
      omega
    rw [List.getElem?_eq_getElem h1]
    rfl

/-- C6: across the three phases of both engines the round-key offset is a
single running counter that advances by exactly `width` per round and is
never reset: every successful round ends at `offset + width`; a full native
permutation on well-formed parameters consumes exactly
`total_rounds * width` keys, in order, finishing at that offset without ever
indexing the key table out of bounds; and the circuit engine likewise ends
at `total_rounds * width` and can never fail with an index-out-of-bounds
panic — in particular `Poseidon_permutation_constraints` never does. -/
theorem c6_round_key_offset (params : PoseidonParams F) (sbox : SboxType)
    (hwf : params.WellFormed) :
    (∀ (full : Bool) (st : List F × ℕ) (r : List F × ℕ),
      roundN params.width params.MDS_matrix params.round_keys sbox full st =
        some r → r.2 = st.2 + params.width) ∧
    (∀ (full : Bool) (st : List (LinComb F) × ℕ) (cs : CS F) r,
      roundC params.width params.MDS_matrix params.round_keys sbox full st
        cs = Except.ok r → r.1.2 = st.2 + params.width) ∧
    (∀ input : List F, input.length = params.width →
      ∃ out, permAuxN params.width params.MDS_matrix params.round_keys sbox
        params.phases (input, 0) =
        some (out, params.total_rounds * params.width)) ∧
    (∀ (st : List (LinComb F) × ℕ) (cs : CS F) r,
      permAuxC params.width params.MDS_matrix params.round_keys sbox
        params.phases st cs = Except.ok r →
      r.1.2 = st.2 + params.total_rounds * params.width) ∧
    (∀ (input : List (AllocatedScalar F)) (cs : CS F),
      Poseidon_permutation_constraints cs input params sbox ≠
        Except.error CircErr.indexOOB) := by
  obtain ⟨hw, hrk, hM, hrows⟩ := hwf
  refine ⟨?_, ?_, ?_, ?_, ?_⟩
  · intro full st r h
    exact roundN_offset h
  · intro full st cs r h
    exact roundC_offset h
  · intro input hlen
    obtain ⟨out, hperm, _⟩ := permAuxN_isSome params.width
      params.MDS_matrix params.round_keys sbox params.phases input 0 hw hlen
      (by rw [phases_length, hrk]; omega) hM hrows
    refine ⟨out, ?_⟩
    rw [hperm, phases_length]
    simp
  · intro st cs r h
    rw [permAuxC_offset h, phases_length]
  · intro input cs h
    unfold Poseidon_permutation_constraints at h
    by_cases hlen : input.length = params.width
    · rw [if_pos hlen] at h
      cases hperm : permAuxC params.width params.MDS_matrix
          params.round_keys sbox params.phases
          (input.map (fun a => LinComb.ofVar a.var), 0) cs with
      | error e =>
        rw [hperm] at h
        injection h with h
        subst h
        exact (permAuxC_spec hM hrows params.phases _ cs
          (by rw [phases_length, hrk]; omega)).1 hperm
      | ok r =>
        obtain ⟨⟨lcs, off⟩, cs'⟩ := r
        simp only [hperm] at h
        exact Except.noConfusion h
    · rw [if_neg hlen] at h
      exact CircErr.noConfusion (Except.error.inj h)

/-- C3 (amended): the 2:1 hash feeds the permutation a state whose position 0
is the additive identity, positions 1 and 2 are the hash inputs, and all
remaining positions are the additive identity, and returns the permutation's
position-1 output — natively exactly when `width = 6` (the fed state is the
fixed six-element `[0, xl, xr, 0, 0, 0]`; for `width ≠ 6` the hash panics,
see the counterexample), and in circuit form when the caller supplies
`width - 2 ≥ 1` zero variables, the fed state being
`[zeros[0], xl, xr] ++ zeros[1..]`. -/
theorem c3_hash2_padding :
    (∀ (xl xr : F) (params : PoseidonParams F) (sbox : SboxType),
      params.width = 6 →
      ∃ s : List F, s.length = params.width ∧ s[0]? = some 0 ∧
        s[1]? = some xl ∧ s[2]? = some xr ∧
        (∀ j, 3 ≤ j → j < params.width → s[j]? = some 0) ∧
        Poseidon_hash_2 xl xr params sbox = permThenOne params sbox s) ∧
    (∀ (cs : CS F) (xl xr : AllocatedScalar F)
      (zeros : List (AllocatedScalar F)) (params : PoseidonParams F)
      (sbox : SboxType), zeros.length + 2 = params.width →
      0 < zeros.length →
      ∃ inputs : List (AllocatedScalar F), inputs.length = params.width ∧
        inputs[0]? = zeros[0]? ∧ inputs[1]? = some xl ∧
        inputs[2]? = some xr ∧
        (∀ j, 3 ≤ j → j < params.width → inputs[j]? = zeros[j - 2]?) ∧
        Poseidon_hash_2_constraints cs xl xr zeros params sbox =
          permThenOneC cs inputs params sbox) := by
  constructor
  · intro xl xr params sbox h6
    refine ⟨[0, xl, xr, 0, 0, 0], by simp [h6], rfl, rfl, rfl, ?_, ?_⟩
    · intro j h3 hj
      rw [h6] at hj
      interval_cases j <;> rfl
    · cases hp : Poseidon_permutation [0, xl, xr, 0, 0, 0] params sbox with
      | none => simp only [Poseidon_hash_2, permThenOne, hp]
      | some out => simp only [Poseidon_hash_2, permThenOne, hp]
  · intro cs xl xr zeros params sbox hlen h0
    refine ⟨zeros[0] :: xl :: xr :: zeros.drop 1, ?_, ?_, by simp, by simp,
      ?_, ?_⟩
    · simp only [List.length_cons, List.length_drop]
      omega
    · rw [List.getElem?_eq_getElem h0]
      simp
    · intro j h3 hj
      obtain ⟨j', rfl⟩ : ∃ j', j = j' + 3 := ⟨j - 3, by omega⟩
      have hstep : (zeros[0] :: xl :: xr :: zeros.drop 1)[j' + 3]? =
          (zeros.drop 1)[j']? := by
        simp [List.getElem?_cons_succ]
      rw [hstep, List.getElem?_drop]
      congr 1
      omega
    · simp only [Poseidon_hash_2_constraints, if_pos hlen,
        List.getElem?_eq_getElem h0]
      cases hp : Poseidon_permutation_constraints cs
          (zeros[0] :: xl :: xr :: zeros.drop 1) params sbox with
      | error e => simp only [permThenOneC, hp]
      | ok r =>
        obtain ⟨lcs, cs'⟩ := r
        simp only [permThenOneC, hp]

/-- C5: in every middle-phase (partial) round both engines add that round's
keys to all `width` positions and apply the S-box to exactly one
distinguished position, the last index `width - 1`; in the circuit engine
every non-selected position bypasses S-box emission entirely and carries
`combination + round_key` forward, and the round's whole constraint-system
change is the single S-box call on the last position — no gate is consumed
for any other position or by the mixing step. -/
theorem c5_partial_round (w : ℕ) (M : List (List F)) (rk : List F)
    (sbox : SboxType) :
    (∀ (s : List F) (off : ℕ) (res : List F × ℕ),
      roundN w M rk sbox false (s, off) = some res →
      ∃ keyed x, keyedSboxListN sbox rk s (fun _ => false) off
          (List.range w) = some keyed ∧
        (∀ i, i < w → keyed.getD i 0 = s.getD i 0 + rk.getD (off + i) 0) ∧
        keyed[w - 1]? = some x ∧
        linearLayerN w M (keyed.set (w - 1) (SboxType.apply_sbox sbox x)) =
          some res.1) ∧
    (∀ (lcs : List (LinComb F)) (off : ℕ) (cs : CS F)
      (res : (List (LinComb F) × ℕ) × CS F), 0 < w →
      roundC w M rk sbox false (lcs, off) cs = Except.ok res →
      ∃ (outs : List (LinComb F)) (v : Var) (csMid : CS F),
        SboxType.synthesize_sbox sbox cs (lcs.getD (w - 1) [])
          (rk.getD (off + (w - 1)) 0) = Except.ok (v, csMid) ∧
        res.2 = csMid ∧ outs.length = w ∧
        (∀ i, i < w - 1 →
          outs.getD i [] = lcs.getD i [] ++
            LinComb.const (rk.getD (off + i) 0)) ∧
        outs.getD (w - 1) [] = LinComb.ofVar v ∧
        apply_linear_layer w outs M = some res.1.1) := by
  constructor
  · intro s off res hnat
    simp only [roundN, Bool.false_eq_true, if_false] at hnat
    cases hkey : keyedSboxListN sbox rk s (fun _ => false) off
        (List.range w) with
    | none => rw [hkey] at hnat; exact absurd hnat (by simp)
    | some keyed =>
      simp only [hkey] at hnat
      cases hx : keyed[w - 1]? with
      | none => rw [hx] at hnat; exact absurd hnat (by simp)
      | some x =>
        simp only [hx] at hnat
        cases hlin : linearLayerN w M
            (keyed.set (w - 1) (SboxType.apply_sbox sbox x)) with
        | none => rw [hlin] at hnat; exact absurd hnat (by simp)
        | some s2 =>
          rw [hlin] at hnat
          simp only [Option.some.injEq] at hnat
          have hb := keyedSboxListN_bounds hkey
          have hmap := keyedSboxListN_map sbox rk s (fun _ => false) off
            (List.range w) hb
          rw [hkey] at hmap
          simp only [Bool.false_eq_true, if_false, Option.some.injEq] at hmap
          refine ⟨keyed, x, rfl, ?_, hx, ?_⟩
          · intro i hi
            rw [hmap, List.getD_eq_getElem?_getD, List.getElem?_map,
              List.getElem?_range hi]
            rfl
          · rw [← hnat]
            exact hlin
  · intro lcs off cs res hw h
    obtain ⟨w', rfl⟩ : ∃ w', w = w' + 1 := ⟨w - 1, by omega⟩
    simp only [roundC, Bool.false_eq_true, if_false, Nat.add_sub_cancel]
      at h ⊢
    cases hlayer : sboxOutputsC sbox rk lcs (fun i => i == w') off
        (List.range (w' + 1)) cs with
    | error e => rw [hlayer] at h; exact absurd h (by simp)
    | ok r0 =>
      obtain ⟨outs0, cs₁⟩ := r0
      simp only [hlayer] at h
      cases hlin : apply_linear_layer (w' + 1) outs0 M with
      | none => rw [hlin] at h; exact absurd h (by simp)
      | some next =>
        rw [hlin] at h
        simp only [Except.ok.injEq] at h
        have hb := sboxOutputsC_bounds hlayer
        rw [List.range_succ] at hlayer
        obtain ⟨outs₁, csA, outs₂, csB, h1, h2, h3⟩ :=
          sboxOutputsC_append_ok hlayer
        have hnosel : sboxOutputsC sbox rk lcs (fun i => i == w') off
            (List.range w') cs = Except.ok ((List.range w').map
              (fun i => lcs.getD i [] ++
                LinComb.const (rk.getD (off + i) 0)), cs) := by
          apply sboxOutputsC_nosel
          · intro i hi
            have := List.mem_range.mp hi
            simp only [beq_eq_false_iff_ne, ne_eq]
            omega
          · intro i hi
            exact hb i (by
              rw [List.range_succ]
              exact List.mem_append_left _ hi)
        have h1' := hnosel.symm.trans h1
        simp only [Except.ok.injEq, Prod.mk.injEq] at h1'
        obtain ⟨houts₁, hcsA⟩ := h1'
        have hjlt : off + w' < rk.length := hb w' (by
          rw [List.range_succ]
          exact List.mem_append_right _ (by simp))
        have hrk : rk.getD (off + w') 0 = rk[off + w'] := by
          rw [List.getD_eq_getElem?_getD, List.getElem?_eq_getElem hjlt]
          rfl
        simp only [sboxOutputsC, List.getElem?_eq_getElem hjlt,
          beq_self_eq_true, if_true] at h2
        cases hs : SboxType.synthesize_sbox sbox csA (lcs.getD w' [])
            rk[off + w'] with
        | error e => rw [hs] at h2; exact absurd h2 (by simp)
        | ok r1 =>
          obtain ⟨v, csMid⟩ := r1
          simp only [hs, Except.ok.injEq, Prod.mk.injEq] at h2
          obtain ⟨houts₂, hcsB⟩ := h2
          refine ⟨outs0, v, csMid, ?_, ?_, ?_, ?_, ?_, ?_⟩
          · rw [hrk, hcsA]
            exact hs
          · rw [← h, hcsB]
            exact (Prod.mk.injEq _ _ _ _ |>.mp h3).2
          · rw [(Prod.mk.injEq _ _ _ _ |>.mp h3).1, ← houts₂, ← houts₁]
            simp
          · intro i hi
            rw [(Prod.mk.injEq _ _ _ _ |>.mp h3).1, ← houts₂, ← houts₁]
            rw [List.getD_eq_getElem?_getD, List.getElem?_append_left
              (by simpa using hi), List.getElem?_map,
              List.getElem?_range hi]
            rfl
          · rw [(Prod.mk.injEq _ _ _ _ |>.mp h3).1, ← houts₂, ← houts₁]
            rw [List.getD_eq_getElem?_getD, List.getElem?_append_right
              (by simp), List.length_map, List.length_range]
            simp
          · rw [← h]
            exact hlin

end Claims

/-! ### Counterexamples and witnesses -/

/-- C4 counterexample: the Inverse S-box native evaluation at the additive
identity is a value, not an error — it returns 0 (which is not an inverse:
the product with the input is not 1), refuting the claim that `evaluate(0)`
fails. -/
theorem c4_counterexample :
    SboxType.Inverse.apply_sbox (0 : ZMod 5) = 0 ∧
    SboxType.Inverse.apply_sbox (0 : ZMod 5) * 0 ≠ 1 := by
  constructor
  · show (0 : ZMod 5)⁻¹ = 0
    exact inv_zero
  · show (0 : ZMod 5)⁻¹ * 0 ≠ 1
    simp

/-- Witness for C4 at the non-zero element `2` of `ZMod 5`. -/
theorem c4_inverse_sbox_witness :
    (2 : ZMod 5) ≠ 0 ∧ SboxType.Inverse.apply_sbox (2 : ZMod 5) * 2 = 1 :=
  ⟨by decide, (c4_inverse_sbox (F := ZMod 5)).2 2 (by decide)⟩

/-- Witness for C7: the cube S-box circuit on the committed value `3` with
round key `1` over `ZMod 5`. -/
theorem c7_cube_sbox_witness :
    ∃ cs', synthesize_cube_sbox csP1 (LinComb.ofVar (Var.comm 0)) 1 =
        Except.ok (Var.mulO (csP1.aL.length + 1), cs') ∧
      cs'.varVal (Var.mulO csP1.aL.length) =
        some (((3 : ZMod 5) + 1) * (3 + 1)) ∧
      cs'.varVal (Var.mulO (csP1.aL.length + 1)) =
        some (((3 : ZMod 5) + 1) * (3 + 1) * (3 + 1)) :=
  (c7_cube_sbox (F := ZMod 5)).2.2.2 csP1 (LinComb.ofVar (Var.comm 0)) 1 3
    (by decide) (by decide) (by decide)

/-- C3 counterexample: a well-formed parameter set of width 4 — within the
claim's "width >= 4" scope — on which the native 2:1 hash panics (the fed
state has the fixed length 6, not `width`) instead of returning the
permutation's position-1 output. -/
theorem c3_counterexample :
    4 ≤ params4.width ∧
    Poseidon_hash_2 (1 : ZMod 5) 2 params4 SboxType.Cube = none := by
  decide

/-- Witness for C3: the native width-6 instance and the circuit width-3
instance. -/
theorem c3_hash2_padding_witness :
    (∃ s : List (ZMod 5), s.length = params6.width ∧ s[0]? = some 0 ∧
      s[1]? = some 1 ∧ s[2]? = some 2 ∧
      (∀ j, 3 ≤ j → j < params6.width → s[j]? = some 0) ∧
      Poseidon_hash_2 (1 : ZMod 5) 2 params6 SboxType.Cube =
        permThenOne params6 SboxType.Cube s) ∧
    (∃ inputs : List (AllocatedScalar (ZMod 5)),
      inputs.length = params3.width ∧ inputs[0]? = zeros3[0]? ∧
      inputs[1]? = some xlA ∧ inputs[2]? = some xrA ∧
      (∀ j, 3 ≤ j → j < params3.width → inputs[j]? = zeros3[j - 2]?) ∧
      Poseidon_hash_2_constraints csP1 xlA xrA zeros3 params3
          SboxType.Cube =
        permThenOneC csP1 inputs params3 SboxType.Cube) :=
  ⟨(c3_hash2_padding (F := ZMod 5)).1 1 2 params6 SboxType.Cube rfl,
   (c3_hash2_padding (F := ZMod 5)).2 csP1 xlA xrA zeros3 params3
     SboxType.Cube (by decide) (by decide)⟩

/-- Witness for C5: the single middle-phase round of the width-2 fixture over
`ZMod 5`, native and circuit (prover role), with the cube S-box. -/
theorem c5_partial_round_witness :
    (∃ res, roundN 2 paramsW2.MDS_matrix paramsW2.round_keys SboxType.Cube
        false (([3, 4] : List (ZMod 5)), 0) = some res ∧
      ∃ keyed x, keyedSboxListN SboxType.Cube paramsW2.round_keys [3, 4]
          (fun _ => false) 0 (List.range 2) = some keyed ∧
        (∀ i, i < 2 → keyed.getD i 0 =
          ([3, 4] : List (ZMod 5)).getD i 0 +
            paramsW2.round_keys.getD (0 + i) 0) ∧
        keyed[2 - 1]? = some x ∧
        linearLayerN 2 paramsW2.MDS_matrix
          (keyed.set (2 - 1) (SboxType.apply_sbox SboxType.Cube x)) =
          some res.1) ∧
    (∃ res, roundC 2 paramsW2.MDS_matrix paramsW2.round_keys SboxType.Cube
        false (([LinComb.ofVar (Var.comm 0), LinComb.ofVar (Var.comm 1)] :
          List (LinComb (ZMod 5))), 0) csP2 = Except.ok res ∧
      ∃ outs v csMid, SboxType.synthesize_sbox SboxType.Cube csP2
          (([LinComb.ofVar (Var.comm 0), LinComb.ofVar (Var.comm 1)] :
            List (LinComb (ZMod 5))).getD (2 - 1) [])
          (paramsW2.round_keys.getD (0 + (2 - 1)) 0) =
          Except.ok (v, csMid) ∧
        res.2 = csMid ∧ outs.length = 2 ∧
        (∀ i, i < 2 - 1 → outs.getD i [] =
          ([LinComb.ofVar (Var.comm 0), LinComb.ofVar (Var.comm 1)] :
            List (LinComb (ZMod 5))).getD i [] ++
            LinComb.const (paramsW2.round_keys.getD (0 + i) 0)) ∧
        outs.getD (2 - 1) [] = LinComb.ofVar v ∧
        apply_linear_layer 2 outs paramsW2.MDS_matrix = some res.1.1) := by
  constructor
  · cases hres : roundN 2 paramsW2.MDS_matrix paramsW2.round_keys
        SboxType.Cube false (([3, 4] : List (ZMod 5)), 0) with
    | none => exact absurd hres (by decide)
    | some res =>
      exact ⟨res, rfl, (c5_partial_round 2 paramsW2.MDS_matrix
        paramsW2.round_keys SboxType.Cube).1 [3, 4] 0 res hres⟩
  · cases hres : roundC 2 paramsW2.MDS_matrix paramsW2.round_keys
        SboxType.Cube false (([LinComb.ofVar (Var.comm 0),
          LinComb.ofVar (Var.comm 1)] : List (LinComb (ZMod 5))), 0)
        csP2 with
    | error e =>
      have hok : (roundC 2 paramsW2.MDS_matrix paramsW2.round_keys
          SboxType.Cube false (([LinComb.ofVar (Var.comm 0),
            LinComb.ofVar (Var.comm 1)] : List (LinComb (ZMod 5))), 0)
          csP2).isOk = true := by decide
      rw [hres] at hok
      simp [Except.isOk, Except.toBool] at hok
    | ok res =>
      exact ⟨res, rfl, (c5_partial_round 2 paramsW2.MDS_matrix
        paramsW2.round_keys SboxType.Cube).2 _ 0 csP2 res (by omega) hres⟩

/-- Witness for C6: the width-1 fixture's native permutation consumes its
three round keys exactly, ending at offset `total_rounds * width = 3`. -/
theorem c6_round_key_offset_witness :
    ∃ out, permAuxN paramsW1.width paramsW1.MDS_matrix paramsW1.round_keys
        SboxType.Cube paramsW1.phases (([3] : List (ZMod 5)), 0) =
      some (out, paramsW1.total_rounds * paramsW1.width) :=
  (c6_round_key_offset paramsW1 SboxType.Cube (by decide)).2.2.1 [3]
    (by decide)

/-- C9 counterexample: at a concrete constraint system, linear combination
and round key, both S-box selections succeed — no selection returns any
error, in particular not a gadget error "inverse not implemented" (for
`Inverse` the verifier role is used, whose run stores no values). -/
theorem c9_counterexample :
    (SboxType.synthesize_sbox SboxType.Cube csP1
      (LinComb.ofVar (Var.comm 0)) 1).isOk = true ∧
    (SboxType.synthesize_sbox SboxType.Inverse csV1
      (LinComb.ofVar (Var.comm 0)) 1).isOk = true := by
  decide

/-- Witness for C9's amended statement at a concrete input. -/
theorem c9_sbox_dispatch_witness :
    (SboxType.synthesize_sbox SboxType.Inverse csV1
        (LinComb.ofVar (Var.comm 0)) 1 =
      synthesize_cube_sbox csV1 (LinComb.ofVar (Var.comm 0)) 1 ∨
     SboxType.synthesize_sbox SboxType.Inverse csV1
        (LinComb.ofVar (Var.comm 0)) 1 =
      synthesize_inverse_sbox csV1 (LinComb.ofVar (Var.comm 0)) 1) ∧
    SboxType.synthesize_sbox SboxType.Inverse csV1
        (LinComb.ofVar (Var.comm 0)) 1 ≠ Except.error
      (CircErr.r1cs (R1CSError.GadgetError "inverse not implemented")) :=
  c9_sbox_dispatch SboxType.Inverse csV1 (LinComb.ofVar (Var.comm 0)) 1

/-- Witness for C10: over `ZMod 5`, the width-4 instance panics while the
width-6 instance hashes. -/
theorem c10_hash2_witness :
    Poseidon_hash_2 (1 : ZMod 5) 2 params4 SboxType.Cube = none ∧
    (Poseidon_hash_2 (1 : ZMod 5) 2 params6 SboxType.Cube).isSome = true :=
  ⟨(c10_hash2_total_only_at_width_six (F := ZMod 5)).1 1 2 params4
      SboxType.Cube (by decide),
   (c10_hash2_total_only_at_width_six (F := ZMod 5)).2 1 2 params6
      SboxType.Cube (by decide) (by decide)⟩

/-- Witness for C8: an empty round-constant table is too short for one round
of width 1, so construction aborts. -/
theorem c8_param_construction_witness :
    PoseidonParams.new ([] : List (ZMod 5)) [[1]] 1 1 0 0 = none :=
  (c8_param_construction [] [[1]] 1 1 0 0).1 (by decide)

/-- Witness for C1: the width-1 cube instance, where the native permutation of
`[3]` is `[4]` and the prover-built circuit evaluates to the same output. -/
theorem c1_circuit_refines_native_witness :
    ∃ lcs cs', Poseidon_permutation_constraints csP1 inputW1 paramsW1
        SboxType.Cube = Except.ok (lcs, cs') ∧
      lcs.length = paramsW1.width ∧
      ([(4 : ZMod 5)]).length = paramsW1.width ∧
      ∀ i, i < paramsW1.width →
        cs'.evalLC (lcs.getD i []) = some (([(4 : ZMod 5)]).getD i 0) :=
  c1_circuit_refines_native paramsW1 SboxType.Cube csP1 inputW1 [3] [4]
    (by decide) (by decide) (by decide) (by decide) (by decide) (by decide)

/-- Witness for C2: on the width-1 cube instance the prover run succeeds, and
the verifier run from the value-free system of the same (empty) topology
returns the same combinations and the same final topology. -/
theorem c2_topology_independent_witness :
    ∃ lcs cs_p' cs_v',
      Poseidon_permutation_constraints csP1 inputW1 paramsW1 SboxType.Cube =
        Except.ok (lcs, cs_p') ∧
      Poseidon_permutation_constraints csV1 inputW1 paramsW1 SboxType.Cube =
        Except.ok (lcs, cs_v') ∧ cs_p'.topo = cs_v'.topo := by
  cases hres : Poseidon_permutation_constraints csP1 inputW1 paramsW1
      SboxType.Cube with
  | error e =>
    have hok : (Poseidon_permutation_constraints csP1 inputW1 paramsW1
        SboxType.Cube).isOk = true := by decide
    rw [hres] at hok
    simp [Except.isOk, Except.toBool] at hok
  | ok r =>
    obtain ⟨lcs, csP⟩ := r
    obtain ⟨csV, h2, h3⟩ := c2_topology_independent paramsW1 SboxType.Cube
      csP1 csV1 inputW1 lcs csP (by decide) (by decide) (by decide) hres
    exact ⟨lcs, csP, csV, rfl, h2, h3⟩

end Poseidon
